import Mathlib

set_option autoImplicit false

/-!
# Verification of the HandCraft layout and variation engines

A shallow embedding, over `List Char` / `String` and exact rationals `ℚ`,
of the pagination engine (`parseText`, `wordWrap`, `paginateContent`), the
diagram-marker parser (`parseDiagramMarker`, `isDiagramLine`,
`getDiagramHeight`) and the variation engine (`mulberry32`,
`createVariationEngine`, `fatigueMult`) of the repository.

Modelling conventions:
* JS numbers are modelled as exact rationals (`ℚ`); the 32-bit PRNG state is
  a natural number with explicit reduction modulo 2^32 at every step that JS
  performs a 32-bit coercion (`|0`, `>>>0`, `Math.imul`).
* Possibly divergent JS loops (the hard-split loop of `wordWrap`, the page
  loop of `paginateContent`) are given explicit fuel and return `Option`;
  the canonical fuel is chosen so that the result is `some` exactly when the
  JS loop terminates.
* `Math.sin` (used only by `baselineWave`) is an opaque deterministic
  function of its argument; the development is parameterised by it.
* Strings are treated per Unicode scalar; the ASCII fragments relevant to
  the analysed behaviour coincide with JS UTF-16 semantics.
-/

/-! ## JS-style character and string utilities -/

/-- JS whitespace (`\s`) restricted to the characters that can occur in the
inputs analysed here: space, tab, line feed, carriage return, vertical tab,
form feed and no-break space. -/
def isJsSpace (c : Char) : Bool :=
  c = ' ' || c = '\t' || c = '\n' || c = '\r' || c = '\x0b' || c = '\x0c' || c = '\u00A0'

/-- JS `Array.prototype.join(sep)`. -/
def joinWith (sep : String) : List String → String
  | [] => ""
  | [w] => w
  | w :: r :: rs => w ++ sep ++ joinWith sep (r :: rs)

/-- Trim JS whitespace from both ends of a character list (JS `trim`). -/
def trimChars (cs : List Char) : List Char :=
  ((cs.dropWhile isJsSpace).reverse.dropWhile isJsSpace).reverse

/-- JS `String.prototype.trim`. -/
def jsTrim (s : String) : String := String.mk (trimChars s.toList)

/-- Worker for `jsSplitWs`: splits into maximal runs separated by
whitespace runs, keeping an empty leading/trailing token exactly as JS
`split(/\s+/)` does.  `cur` is the (reversed) token being scanned;
`inSpace` records that the previous character was whitespace (in which
case `cur = []` and further whitespace extends the same separator run). -/
def splitWsAux : List Char → List Char → Bool → List (List Char)
  | [], cur, _ => [cur.reverse]
  | c :: rest, cur, inSpace =>
    if isJsSpace c then
      if inSpace then splitWsAux rest cur true
      else cur.reverse :: splitWsAux rest [] true
    else splitWsAux rest (c :: cur) false

/-- JS `text.split(/\s+/)`. -/
def jsSplitWs (s : String) : List String :=
  (splitWsAux s.toList [] false).map String.mk

/-! ## Diagram renderer: marker parsing and height table (diagramRenderer.js) -/

/-- A parsed diagram marker `{type, title, description}`. -/
structure DiagramSpec where
  type : String
  title : String
  description : String
deriving DecidableEq, Repr

/-- The literal head of the marker regex, lower-cased: `[DIAGRAM:`. -/
def markerLit : List Char := ['[', 'd', 'i', 'a', 'g', 'r', 'a', 'm', ':']

/-- Case-insensitive prefix test: `pat` (already lower case) is a prefix of
`cs` up to `Char.toLower`. -/
def ciPrefixOf : List Char → List Char → Bool
  | [], _ => true
  | _ :: _, [] => false
  | p :: ps, c :: cs => (c.toLower = p) && ciPrefixOf ps cs

/-- JS regex `\w`: `[A-Za-z0-9_]`. -/
def isWordChar (c : Char) : Bool :=
  ('a' ≤ c && c ≤ 'z') || ('A' ≤ c && c ≤ 'Z') || ('0' ≤ c && c ≤ '9') || c = '_'

/-- JS regex `.` without the `s` flag: any character except a line
terminator (`\n`, `\r`, U+2028, U+2029). -/
def isDotChar (c : Char) : Bool :=
  !(c = '\n' || c = '\r' || c = '\u2028' || c = '\u2029')

/-- The characters strictly before the last `]` of `cs`, or `none` when `cs`
contains no `]`.  This realises the backtracking of the greedy `(.+)\]`
tail of the marker regex. -/
def takeToLastClose (cs : List Char) : Option (List Char) :=
  match cs.reverse.dropWhile (fun c => !(c = ']')) with
  | [] => none
  | _ :: restRev => some restRev.reverse

/-- One attempted match of the regex
`/\[DIAGRAM:\s*(\w+)\s*\|\s*([^|]+)\s*\|\s*(.+)\]/i` anchored at the head of
`cs`, written as the (deterministic) parser the backtracking regex engine
reduces to on this pattern: since `\s` and `\w` are disjoint and `[^|]`
cannot cross a `|`, all quantifier choices are forced except for the final
greedy `(.+)\]`, which selects the last `]` of the longest
line-terminator-free run. -/
def matchMarkerAt (cs : List Char) : Option DiagramSpec :=
  if ciPrefixOf markerLit cs then
    let r1 := (cs.drop 9).dropWhile isJsSpace
    let tw := r1.takeWhile isWordChar
    if tw = [] then none else
    match (r1.dropWhile isWordChar).dropWhile isJsSpace with
    | '|' :: after1 =>
      let S := after1.takeWhile (fun c => !(c = '|'))
      if S = [] then none else
      match after1.dropWhile (fun c => !(c = '|')) with
      | '|' :: after2 =>
        match takeToLastClose (after2.takeWhile isDotChar) with
        | some D =>
          if D = [] then none
          else some ⟨String.mk (trimChars (tw.map Char.toLower)),
                     String.mk (trimChars S), String.mk (trimChars D)⟩
        | none => none
      | _ => none
    | _ => none
  else none

/-- Leftmost-match search of the marker regex over all start positions. -/
def findMarker : List Char → Option DiagramSpec
  | [] => none
  | c :: cs =>
    match matchMarkerAt (c :: cs) with
    | some d => some d
    | none => findMarker cs

/-- `parseDiagramMarker` of diagramRenderer.js: parse
`"[DIAGRAM: type | title | description]"`, returning `none` (JS `null`) on
no match. -/
def parseDiagramMarker (s : String) : Option DiagramSpec := findMarker s.toList

/-- Whether `cs` contains the case-insensitive literal `[DIAGRAM:`. -/
def containsMarkerLit : List Char → Bool
  | [] => false
  | c :: cs => ciPrefixOf markerLit (c :: cs) || containsMarkerLit cs

/-- `isDiagramLine` of diagramRenderer.js: `/\[DIAGRAM:/i.test(text)`. -/
def isDiagramLine (s : String) : Bool := containsMarkerLit s.toList

/-- A value read from the `heights[diagramType]` lookup in
`getDiagramHeight`: either a JS number, or the truthy non-numeric value
inherited from `Object.prototype` when the subscript names one of its
members (subscripting a plain object literal consults the prototype chain
on a miss). -/
inductive JsHeightValue where
  | num (q : ℚ)
  | protoMember (name : String)
deriving DecidableEq, Repr

/-- The property names of `Object.prototype`.  Subscripting a plain object
literal with any of these hits an inherited value: a function, or (for
`__proto__`) the `Object.prototype` object itself.  All of these values are
truthy, so `heights[k] || 320` returns the inherited value, not 320. -/
def objectProtoMembers : List String :=
  ["constructor", "hasOwnProperty", "isPrototypeOf", "propertyIsEnumerable",
   "toLocaleString", "toString", "valueOf", "__defineGetter__",
   "__defineSetter__", "__lookupGetter__", "__lookupSetter__", "__proto__"]

/-- `getDiagramHeight` of diagramRenderer.js: `heights[diagramType] || 320`
on the plain object literal `heights`.  An own property yields its (truthy,
numeric) value; a miss falls through to `Object.prototype`, whose members
are truthy non-numbers that `||` passes through unchanged; only a string
that is neither an own property nor an `Object.prototype` member reads
`undefined` and takes the default 320. -/
def getDiagramHeight (diagramType : String) : JsHeightValue :=
  if diagramType = "flowchart" then .num 350
  else if diagramType = "tree" then .num 340
  else if diagramType = "table" then .num 300
  else if diagramType = "labeled" then .num 380
  else if diagramType = "cycle" then .num 360
  else if diagramType ∈ objectProtoMembers then .protoMember diagramType
  else .num 320

/-- The numeric reading of the height table, used by the pagination data
model of this embedding, which stores diagram block heights as rationals.
It agrees with `getDiagramHeight` whenever that returns a number: on the
five known kinds and on every string outside `objectProtoMembers`.
`parseText` feeds it the lower-cased `\w+` capture of the marker, so of
the member names only `constructor` and `__proto__` can reach the lookup
from a parsed marker; on those two the real program stores the inherited
non-numeric value in the block, which this rational data model does not
represent. -/
def diagramHeightQ (diagramType : String) : ℚ :=
  if diagramType = "flowchart" then 350
  else if diagramType = "tree" then 340
  else if diagramType = "table" then 300
  else if diagramType = "labeled" then 380
  else if diagramType = "cycle" then 360
  else 320

/-- The five known diagram kinds. -/
def knownDiagramTypes : List String := ["flowchart", "tree", "table", "labeled", "cycle"]

/-- Serialisation of a diagram marker, following the spec's marker grammar
`[DIAGRAM: <type> | <title> | <description>]` (single spaces around the
delimiters); the repository itself never serialises markers, so this is the
spec-side definition the round-trip claim compares the parser against. -/
def serializeMarker (type title description : String) : String :=
  "[DIAGRAM: " ++ type ++ " | " ++ title ++ " | " ++ description ++ "]"

/-! ## Pagination engine data model (paginationEngine.js) -/

/-- A4 page width at 300 DPI. -/
def A4_WIDTH_PX : ℚ := 2480

/-- A4 page height at 300 DPI. -/
def A4_HEIGHT_PX : ℚ := 3508

/-- Top margin in pixels. -/
def TOP_MARGIN : ℚ := 140

/-- Bottom margin in pixels. -/
def BOTTOM_MARGIN : ℚ := 100

/-- The usable page height `A4_HEIGHT_PX - TOP_MARGIN - BOTTOM_MARGIN`
computed at the top of `paginateContent`. -/
def usableHeightQ : ℚ := A4_HEIGHT_PX - TOP_MARGIN - BOTTOM_MARGIN

/-- A content block produced by `parseText`: paragraph, heading (with
level), or diagram (with its reserved height). -/
inductive Block
  | paragraph (text : String)
  | heading (level : Nat) (text : String)
  | diagram (spec : DiagramSpec) (height : ℚ)
deriving DecidableEq, Repr

/-- The `type` tag of a non-diagram laid-out line. -/
inductive LineKind
  | headerTitle
  | headerDetail
  | spacer
  | heading
  | paragraph
deriving DecidableEq, Repr

/-- One laid-out line: either a text-like line (text, kind tag, heading
level — level is 0 where the JS object carries no `level` field) or a
diagram entry with its reserved pixel height. -/
inductive LaidOutLine
  | text (s : String) (kind : LineKind) (level : Nat)
  | diagram (spec : DiagramSpec) (heightPx : ℚ)
deriving DecidableEq, Repr

/-- A page: its laid-out lines and the first-page flag. -/
structure Page where
  lines : List LaidOutLine
  isFirstPage : Bool
deriving DecidableEq, Repr

/-- The style fields consumed by the pagination engine (`fontSize`,
`lineHeight`); the remaining `HANDWRITING_STYLES` fields (font family,
letter spacing, intensity, …) never enter pagination. -/
structure StyleConfig where
  fontSize : ℚ
  lineHeight : ℚ
deriving DecidableEq, Repr

/-- The page-type fields consumed by the pagination engine; `marginRight`
is absent (`none`) for single-margin and plain page types. -/
structure PageTypeConfig where
  marginLeft : ℚ
  marginRight : Option ℚ
deriving DecidableEq, Repr

/-- Header fields; the empty string models a missing/empty (JS-falsy)
field. -/
structure HeaderInfo where
  title : String
  name : String
  rollNumber : String
  subject : String
  date : String
deriving DecidableEq, Repr

/-! ## parseText (paginationEngine.js lines 111–182) -/

/-- Flush the accumulated paragraph buffer (a list of trimmed source lines)
as a single paragraph block whose text joins the lines with single
spaces. -/
def flushPara (cur : List String) (blocks : List Block) : List Block :=
  if cur = [] then blocks
  else blocks ++ [Block.paragraph (joinWith " " cur)]

/-- Number of leading `#` characters (`/^#+/`). -/
def leadingHashCount (cs : List Char) : Nat := (cs.takeWhile (· = '#')).length

/-- `trimmed.replace(/^#+\s*/, '')`: strip the leading `#` run and the
whitespace run following it. -/
def stripHeadingMarks (cs : List Char) : List Char :=
  (cs.dropWhile (· = '#')).dropWhile isJsSpace

/-- The implicit-heading heuristic:
`trimmed.length < 60 && trimmed === trimmed.toUpperCase() && /[A-Z]/.test(trimmed)`
(ASCII model of `toUpperCase`). -/
def isAllCapsHeading (cs : List Char) : Bool :=
  decide (cs.length < 60) && cs.all (fun c => c.toUpper = c) && cs.any (fun c => 'A' ≤ c && c ≤ 'Z')

/-- The line-scanning loop of `parseText`. -/
def parseTextLoop : List String → List String → List Block → List Block
  | [], cur, blocks => flushPara cur blocks
  | line :: rest, cur, blocks =>
    let trimmed := jsTrim line
    if trimmed = "" then parseTextLoop rest [] (flushPara cur blocks)
    else if isDiagramLine trimmed then
      let blocks' := flushPara cur blocks
      match parseDiagramMarker trimmed with
      | some d =>
        parseTextLoop rest [] (blocks' ++ [Block.diagram d (diagramHeightQ d.type)])
      | none => parseTextLoop rest [] blocks'
    else if trimmed.startsWith "#" then
      let lvl := min (leadingHashCount trimmed.toList) 3
      parseTextLoop rest []
        (flushPara cur blocks ++ [Block.heading lvl (String.mk (stripHeadingMarks trimmed.toList))])
    else if isAllCapsHeading trimmed.toList then
      parseTextLoop rest [] (flushPara cur blocks ++ [Block.heading 2 trimmed])
    else parseTextLoop rest (cur ++ [trimmed]) blocks

/-- `parseText` of paginationEngine.js: raw text to structured blocks. -/
def parseText (rawText : String) : List Block :=
  if jsTrim rawText = "" then []
  else parseTextLoop (rawText.splitOn "\n") [] []

/-! ## wordWrap (paginationEngine.js lines 200–225) -/

/-- The hard-split loop of `wordWrap`
(`while (remaining.length > maxCharsPerLine) { push chunk+'-'; remaining = ... }`),
with fuel: a `none` result means the JS loop never terminates (which
happens exactly when no progress is made, i.e. `maxCharsPerLine ≤ 1`).
Negative substring bounds clamp to 0 as in JS. Returns the pushed
hyphen-terminated chunks and the final remainder. -/
def hardSplit : Nat → List Char → ℤ → Option (List (List Char) × List Char)
  | 0, w, maxChars => if (w.length : ℤ) > maxChars then none else some ([], w)
  | fuel + 1, w, maxChars =>
    if (w.length : ℤ) > maxChars then
      (hardSplit fuel (w.drop (maxChars - 1).toNat) maxChars).map
        (fun p => ((w.take (maxChars - 1).toNat ++ ['-']) :: p.1, p.2))
    else some ([], w)

/-- The per-word loop of `wordWrap`, carrying the current line and the
emitted lines. -/
def wwGo (maxChars : ℤ) : List String → String → List String → Option (List String)
  | [], cl, lines => some (lines ++ if cl = "" then [] else [cl])
  | w :: rs, cl, lines =>
    if (cl.length : ℤ) + (w.length : ℤ) + 1 ≤ maxChars then
      wwGo maxChars rs (if cl = "" then w else cl ++ " " ++ w) lines
    else
      let lines' := lines ++ if cl = "" then [] else [cl]
      if (w.length : ℤ) > maxChars then
        match hardSplit (w.length + 1) w.toList maxChars with
        | none => none
        | some p => wwGo maxChars rs (String.mk p.2) (lines' ++ p.1.map String.mk)
      else wwGo maxChars rs w lines'

/-- `wordWrap` of paginationEngine.js. `none` models divergence of the JS
hard-split loop; per-word fuel `w.length + 1` is exact (the JS loop on a
word of length L makes at most L iterations when it makes progress at
all). -/
def wordWrap (text : String) (maxCharsPerLine : ℤ) : Option (List String) :=
  if text = "" then some [""]
  else (wwGo maxCharsPerLine (jsSplitWs text) "" []).map
    (fun lines => if lines = [] then [""] else lines)

/-! ## paginateContent (paginationEngine.js lines 242–339) -/

/-- `estimateCharsPerLine`: available width divided by the estimated char
width `fontSize * 0.48`, floored.  (JS `||` defaults apply to falsy, i.e.
zero, margins.  For `fontSize = 0` JS yields `Infinity`; here division by
zero yields 0 — no claim touches that case.) -/
def estimateCharsPerLine (fontSize : ℚ) (pageType : PageTypeConfig) : ℤ :=
  let leftMargin := (if pageType.marginLeft = 0 then 120 else pageType.marginLeft) + 30
  let rightMargin :=
    match pageType.marginRight with
    | some r => if r = 0 then 100 else r + 20
    | none => 100
  let availableWidth := A4_WIDTH_PX - leftMargin - rightMargin
  Rat.floor (availableWidth / (fontSize * 0.48))

/-- The header-line block built at the top of `paginateContent`: title line,
`Name / Roll No` line, `Subject / Date` line (details joined by five
spaces), then a spacer — each present only when its fields are
non-empty. -/
def buildHeaderLines : Option HeaderInfo → List LaidOutLine
  | none => []
  | some h =>
    let l1 := if h.title ≠ "" then [LaidOutLine.text h.title LineKind.headerTitle 0] else []
    let d1 := (if h.name ≠ "" then ["Name: " ++ h.name] else []) ++
              (if h.rollNumber ≠ "" then ["Roll No: " ++ h.rollNumber] else [])
    let l2 := if d1 ≠ [] then [LaidOutLine.text (joinWith "     " d1) LineKind.headerDetail 0] else []
    let d2 := (if h.subject ≠ "" then ["Subject: " ++ h.subject] else []) ++
              (if h.date ≠ "" then ["Date: " ++ h.date] else [])
    let l3 := if d2 ≠ [] then [LaidOutLine.text (joinWith "     " d2) LineKind.headerDetail 0] else []
    let hl := l1 ++ l2 ++ l3
    if hl ≠ [] then hl ++ [LaidOutLine.text "" LineKind.spacer 0] else []

/-- A spacer line. -/
def spacerLine : LaidOutLine := LaidOutLine.text "" LineKind.spacer 0

/-- The heading wrap budget `Math.floor(charsPerLine * 0.82)`. -/
def headingBudget (charsPerLine : ℤ) : ℤ := Rat.floor ((charsPerLine : ℚ) * 0.82)

/-- The block → flat-line conversion loop of `paginateContent`
(`allLines`), accumulating into `acc`; a heading emits a leading spacer
only when lines have already been emitted (`allLines.length > 0`).  `none`
propagates divergence of `wordWrap`. -/
def buildAllLines (charsPerLine : ℤ) (acc : List LaidOutLine) : List Block → Option (List LaidOutLine)
  | [] => some acc
  | Block.diagram d h :: bs =>
    buildAllLines charsPerLine (acc ++ [spacerLine, LaidOutLine.diagram d h, spacerLine]) bs
  | Block.heading lvl t :: bs =>
    match wordWrap t (headingBudget charsPerLine) with
    | none => none
    | some wrapped =>
      buildAllLines charsPerLine
        (acc ++ (if acc ≠ [] then [spacerLine] else []) ++
          wrapped.map (fun wl => LaidOutLine.text wl LineKind.heading lvl) ++ [spacerLine]) bs
  | Block.paragraph t :: bs =>
    match wordWrap t charsPerLine with
    | none => none
    | some wrapped =>
      buildAllLines charsPerLine
        (acc ++ wrapped.map (fun wl => LaidOutLine.text wl LineKind.paragraph 0) ++ [spacerLine]) bs

/-- The vertical space consumed by one laid-out line: one `lineSpacing` for
any text-like line, `heightPx || 320` for a diagram. -/
def lineSpace (lineSpacing : ℚ) : LaidOutLine → ℚ
  | LaidOutLine.text _ _ _ => lineSpacing
  | LaidOutLine.diagram _ h => if h = 0 then 320 else h

/-- The inner page-filling loop of `paginateContent`: starting from the
lines already placed on the page (`placed`, the header on page 1) and the
running vertical cursor `y`, place lines until one does not fit; returns
the page's lines and the unconsumed remainder. -/
def fillPage (lineSpacing : ℚ) : List LaidOutLine → ℚ → List LaidOutLine →
    List LaidOutLine × List LaidOutLine
  | [], _, placed => (placed, [])
  | l :: ls, y, placed =>
    match l with
    | LaidOutLine.diagram _ h =>
      let space := if h = 0 then 320 else h
      if y + space > usableHeightQ ∧ placed ≠ [] then (placed, l :: ls)
      else fillPage lineSpacing ls (y + space) (placed ++ [l])
    | LaidOutLine.text _ _ _ =>
      if y + lineSpacing > usableHeightQ then (placed, l :: ls)
      else fillPage lineSpacing ls (y + lineSpacing) (placed ++ [l])

/-- The outer page loop of `paginateContent`, with fuel: each iteration
opens a page (the first one pre-loaded with the header lines), fills it,
and recurses on the remainder.  `none` models the JS loop's divergence
(an iteration that consumes no line repeats forever); fuel
`allLines.length + 1` is exact. -/
def paginateLoop (lineSpacing : ℚ) (headerLines : List LaidOutLine) :
    Nat → List LaidOutLine → Bool → Option (List Page)
  | _, [], _ => some []
  | 0, _ :: _, _ => none
  | fuel + 1, l :: ls, isFirst =>
    let start := if isFirst then headerLines else []
    let filled := fillPage lineSpacing (l :: ls) ((start.length : ℚ) * lineSpacing) start
    match paginateLoop lineSpacing headerLines fuel filled.2 false with
    | none => none
    | some ps => some (⟨filled.1, isFirst⟩ :: ps)

/-- `paginateContent` of paginationEngine.js.  `none` models divergence of
the JS code (a `wordWrap` hard-split that never terminates, or a text line
that fits on no page). -/
def paginateContent (blocks : List Block) (style : StyleConfig)
    (pageType : PageTypeConfig) (headerInfo : Option HeaderInfo) : Option (List Page) :=
  let lineSpacing := style.fontSize * style.lineHeight
  let charsPerLine := estimateCharsPerLine style.fontSize pageType
  let headerLines := buildHeaderLines headerInfo
  match buildAllLines charsPerLine [] blocks with
  | none => none
  | some allLines =>
    match paginateLoop lineSpacing headerLines (allLines.length + 1) allLines true with
    | none => none
    | some pages =>
      some (if pages = [] then [⟨headerLines, true⟩] else pages)

/-! ## Derived notions used to state the claims -/

/-- Total height consumed by a page's lines under the code's accounting. -/
def consumedHeight (lineSpacing : ℚ) (lines : List LaidOutLine) : ℚ :=
  (lines.map (lineSpace lineSpacing)).sum

/-- All laid-out lines of a page list, concatenated in order. -/
def pagesFlat (pages : List Page) : List LaidOutLine :=
  (pages.map Page.lines).flatten

/-- Whether a line is a spacer. -/
def isSpacerLine : LaidOutLine → Bool
  | LaidOutLine.text _ LineKind.spacer _ => true
  | _ => false

/-- Maximal runs of non-spacer lines (spacers separate, and are dropped). -/
def runsGo : List LaidOutLine → List LaidOutLine → List (List LaidOutLine)
  | [], cur => if cur = [] then [] else [cur.reverse]
  | l :: ls, cur =>
    if isSpacerLine l then
      if cur = [] then runsGo ls [] else cur.reverse :: runsGo ls []
    else runsGo ls (l :: cur)

/-- Maximal runs of non-spacer lines, in order (spacers separate runs and
are dropped). -/
def runsOf (ls : List LaidOutLine) : List (List LaidOutLine) := runsGo ls []

/-- The text of a text-like line (junk `""` for diagrams). -/
def lineText : LaidOutLine → String
  | LaidOutLine.text s _ _ => s
  | LaidOutLine.diagram _ _ => ""

/-- Rejoin the wrapped lines of a run with single spaces. -/
def rejoinRun (run : List LaidOutLine) : String :=
  joinWith " " (run.map lineText)

/-- Interpret one non-spacer run back as a block: a lone diagram line is a
diagram block; a run starting with a heading line is a heading (of that
line's level) whose text rejoins the wrapped lines; anything else is a
paragraph whose text rejoins the wrapped lines. -/
def runToBlock (run : List LaidOutLine) : Block :=
  match run with
  | [LaidOutLine.diagram d h] => Block.diagram d h
  | LaidOutLine.text _ LineKind.heading lvl :: _ => Block.heading lvl (rejoinRun run)
  | _ => Block.paragraph (rejoinRun run)

/-- Recover the block sequence from a flat laid-out content stream. -/
def blocksOfLines (ls : List LaidOutLine) : List Block :=
  (runsOf ls).map runToBlock

/-- A text together with a wrap budget is *normalized* when the text is
exactly its whitespace-split words rejoined with single spaces, the words
are non-empty, and every word fits the budget.  Under this condition
`wordWrap` neither hyphen-splits a word nor collapses whitespace, so the
wrapped lines rejoin losslessly. -/
def NormalizedFor (t : String) (m : ℤ) : Prop :=
  (∀ w ∈ jsSplitWs t, w ≠ "" ∧ (w.length : ℤ) ≤ m) ∧
    t = joinWith " " (jsSplitWs t)

instance (t : String) (m : ℤ) : Decidable (NormalizedFor t m) := by
  unfold NormalizedFor; infer_instance

/-- The per-block hypothesis of the amended reproduction claim: paragraph
and (non-empty) heading texts are normalized for their respective wrap
budgets. -/
def BlockNormalized (charsPerLine : ℤ) : Block → Prop
  | Block.paragraph t => NormalizedFor t charsPerLine
  | Block.heading _ t => t = "" ∨ NormalizedFor t (headingBudget charsPerLine)
  | Block.diagram _ _ => True

instance (charsPerLine : ℤ) (b : Block) : Decidable (BlockNormalized charsPerLine b) := by
  unfold BlockNormalized; cases b <;> infer_instance

/-! ## Variation engine (variationEngine.js) -/

/-- One call of the closure returned by `mulberry32`: the new 32-bit state
and the produced value `u / 2^32 ∈ [0,1)`.  Every JS 32-bit coercion
(`|0`, `Math.imul`, `>>>0`) is an explicit `% 2^32`; `>>>` is a shift of
the unsigned 32-bit representative. -/
def mb32Next (a : Nat) : Nat × ℚ :=
  let a1 := (a % 4294967296 + 0x6D2B79F5) % 4294967296
  let t0 := ((a1 ^^^ (a1 >>> 15)) * (a1 ||| 1)) % 4294967296
  let m := ((t0 ^^^ (t0 >>> 7)) * (t0 ||| 61)) % 4294967296
  let t2 := ((t0 + m) % 4294967296) ^^^ t0
  let u := t2 ^^^ (t2 >>> 14)
  (a1, (u : ℚ) / 4294967296)

/-- The PRNG state after `n` calls of the `mulberry32` closure seeded with
`seed`. -/
def mb32State (seed : Nat) : Nat → Nat
  | 0 => seed
  | n + 1 => (mb32Next (mb32State seed n)).1

/-- The value returned by the `(n+1)`-th call of the `mulberry32` closure
(the engine's `random()`). -/
def nthRandom (seed : Nat) (n : Nat) : ℚ := (mb32Next (mb32State seed n)).2

/-- `fatigueMult` of variationEngine.js as a function of the captured
`fatigueMode` string, the captured `pageProgress`, and the current
`charCount`; the `switch` default covers `'none'` and every other
string. -/
def fatigueMult (fatigueMode : String) (pageProgress : ℚ) (charCount : Nat) : ℚ :=
  let charFatigue : ℚ := 1 + min ((charCount : ℚ) / 6000) 0.4
  if fatigueMode = "gradual" then
    charFatigue * (1 + pageProgress * 0.6)
  else if fatigueMode = "rush" then
    if pageProgress > 0.6 then
      charFatigue * (1 + ((pageProgress - 0.6) / 0.4) * 1.2)
    else charFatigue
  else if fatigueMode = "careful-start" then
    if pageProgress < 0.2 then charFatigue * 0.4
    else charFatigue * (0.6 + (pageProgress - 0.2) * 0.75)
  else charFatigue

/-- `baselineJitter` body as a function of the drawn random `r`, the
intensity `i` and the fatigue multiplier `f`. -/
def baselineJitterOut (r i f : ℚ) : ℚ := (r - 0.5) * 6.0 * i * f

/-- `letterSpacingJitter` body. -/
def letterSpacingJitterOut (r i f : ℚ) : ℚ := (r - 0.5) * 3.2 * i * f

/-- `rotationJitter` body. -/
def rotationJitterOut (r i f : ℚ) : ℚ := (r - 0.5) * 0.06 * i * f

/-- `sizeJitter` body. -/
def sizeJitterOut (base r i f : ℚ) : ℚ := base + (r - 0.5) * 3.0 * i * f

/-- `opacityJitter` body. -/
def opacityJitterOut (r i f : ℚ) : ℚ :=
  min ((0.65 + r * 0.35 * i) / (f * 0.3 + 0.7)) 1

/-- `wordSpacingJitter` body. -/
def wordSpacingJitterOut (r i f : ℚ) : ℚ := (r - 0.5) * 7.0 * i * f

/-- `lineStartJitter` body. -/
def lineStartJitterOut (r i f : ℚ) : ℚ := (r - 0.3) * 10 * i * f

/-- `baselineWave` body, parameterised by the `Math.sin` function. -/
def baselineWaveOut (jsSin : ℚ → ℚ) (charIndex r i f : ℚ) : ℚ :=
  jsSin (charIndex * 0.08 + r * 2) * 3.5 * i * f

/-- `wordShift` body. -/
def wordShiftOut (r i f : ℚ) : ℚ := (r - 0.5) * 4.5 * i * f

/-- `wordStretch` body (note: the source applies no fatigue factor
here). -/
def wordStretchOut (r i : ℚ) : ℚ := 0.94 + r * 0.12 * i

/-- `inkBlob` body (note: the source takes no intensity argument
here). -/
def inkBlobOut (r f : ℚ) : Bool := decide (r < 0.03 * f)

/-- `lineAngle` body. -/
def lineAngleOut (r i f : ℚ) : ℚ := (r - 0.5) * 0.006 * i * f

/-- The mutable state captured by the closure `createVariationEngine`
returns: the PRNG state `a`, the character counter, and the captured
constructor arguments. -/
structure EngineState where
  a : Nat
  charCount : Nat
  fatigueMode : String
  pageProgress : ℚ
deriving DecidableEq

/-- `createVariationEngine(seed, fatigueMode, pageProgress)`: fresh engine
state. -/
def createVariationEngine (seed : Nat) (fatigueMode : String) (pageProgress : ℚ) : EngineState :=
  ⟨seed, 0, fatigueMode, pageProgress⟩

/-- One method invocation on the engine object. -/
inductive VECall
  | tick
  | baselineJitter (i : ℚ)
  | letterSpacingJitter (i : ℚ)
  | rotationJitter (i : ℚ)
  | sizeJitter (base : ℚ) (i : ℚ)
  | opacityJitter (i : ℚ)
  | wordSpacingJitter (i : ℚ)
  | lineStartJitter (i : ℚ)
  | baselineWave (charIndex : ℚ) (i : ℚ)
  | wordShift (i : ℚ)
  | wordStretch (i : ℚ)
  | inkBlob
  | lineAngle (i : ℚ)
  | random
deriving DecidableEq

/-- The value one method invocation returns. -/
inductive VEOut
  | num (q : ℚ)
  | bool (b : Bool)
  | unit
deriving DecidableEq

/-- Execute one method invocation: thread the PRNG state and character
counter exactly as the closures of variationEngine.js do. -/
def stepCall (jsSin : ℚ → ℚ) (st : EngineState) : VECall → VEOut × EngineState
  | VECall.tick => (VEOut.unit, { st with charCount := st.charCount + 1 })
  | VECall.baselineJitter i =>
    let p := mb32Next st.a
    (VEOut.num (baselineJitterOut p.2 i (fatigueMult st.fatigueMode st.pageProgress st.charCount)),
      { st with a := p.1 })
  | VECall.letterSpacingJitter i =>
    let p := mb32Next st.a
    (VEOut.num (letterSpacingJitterOut p.2 i (fatigueMult st.fatigueMode st.pageProgress st.charCount)),
      { st with a := p.1 })
  | VECall.rotationJitter i =>
    let p := mb32Next st.a
    (VEOut.num (rotationJitterOut p.2 i (fatigueMult st.fatigueMode st.pageProgress st.charCount)),
      { st with a := p.1 })
  | VECall.sizeJitter base i =>
    let p := mb32Next st.a
    (VEOut.num (sizeJitterOut base p.2 i (fatigueMult st.fatigueMode st.pageProgress st.charCount)),
      { st with a := p.1 })
  | VECall.opacityJitter i =>
    let p := mb32Next st.a
    (VEOut.num (opacityJitterOut p.2 i (fatigueMult st.fatigueMode st.pageProgress st.charCount)),
      { st with a := p.1 })
  | VECall.wordSpacingJitter i =>
    let p := mb32Next st.a
    (VEOut.num (wordSpacingJitterOut p.2 i (fatigueMult st.fatigueMode st.pageProgress st.charCount)),
      { st with a := p.1 })
  | VECall.lineStartJitter i =>
    let p := mb32Next st.a
    (VEOut.num (lineStartJitterOut p.2 i (fatigueMult st.fatigueMode st.pageProgress st.charCount)),
      { st with a := p.1 })
  | VECall.baselineWave charIndex i =>
    let p := mb32Next st.a
    (VEOut.num (baselineWaveOut jsSin charIndex p.2 i (fatigueMult st.fatigueMode st.pageProgress st.charCount)),
      { st with a := p.1 })
  | VECall.wordShift i =>
    let p := mb32Next st.a
    (VEOut.num (wordShiftOut p.2 i (fatigueMult st.fatigueMode st.pageProgress st.charCount)),
      { st with a := p.1 })
  | VECall.wordStretch i =>
    let p := mb32Next st.a
    (VEOut.num (wordStretchOut p.2 i), { st with a := p.1 })
  | VECall.inkBlob =>
    let p := mb32Next st.a
    (VEOut.bool (inkBlobOut p.2 (fatigueMult st.fatigueMode st.pageProgress st.charCount)),
      { st with a := p.1 })
  | VECall.lineAngle i =>
    let p := mb32Next st.a
    (VEOut.num (lineAngleOut p.2 i (fatigueMult st.fatigueMode st.pageProgress st.charCount)),
      { st with a := p.1 })
  | VECall.random =>
    let p := mb32Next st.a
    (VEOut.num p.2, { st with a := p.1 })

/-- Run a sequence of method invocations, collecting the outputs. -/
def runEngine (jsSin : ℚ → ℚ) (st : EngineState) : List VECall → List VEOut × EngineState
  | [] => ([], st)
  | c :: cs =>
    let p := stepCall jsSin st c
    let q := runEngine jsSin p.2 cs
    (p.1 :: q.1, q.2)

/-- Joining two pieces of space-joined text: the identity-respecting binary
version of `joinWith " "` used to state the wrap/rejoin invariants. -/
def glueSp (a b : String) : String :=
  if a = "" then b else if b = "" then a else a ++ " " ++ b

/-- Whether a line is one of the two header kinds. -/
def isHeaderKindLine : LaidOutLine → Bool
  | LaidOutLine.text _ LineKind.headerTitle _ => true
  | LaidOutLine.text _ LineKind.headerDetail _ => true
  | _ => false

/-- The height condition C2 asserts of a page: the consumed height fits the
usable height, or the page consists of a single oversized diagram placed
alone. -/
def HeightOk (lineSpacing : ℚ) (lines : List LaidOutLine) : Prop :=
  consumedHeight lineSpacing lines ≤ usableHeightQ ∨
    ∃ d h, lines = [LaidOutLine.diagram d h] ∧
      usableHeightQ < lineSpace lineSpacing (LaidOutLine.diagram d h)

/-! ## C9: diagram height table -/

/-- C9 (counterexample): the lookup `heights[diagramType] || 320` consults
the prototype chain of the plain object literal, so the unknown input
`"constructor"` reads the inherited `Object.prototype.constructor` — a
truthy non-number that `||` passes through — and the function does not
return the default 320. -/
theorem C9_default_counterexample :
    ("constructor" : String) ∉ knownDiagramTypes ∧
    getDiagramHeight "constructor" ≠ JsHeightValue.num 320 ∧
    getDiagramHeight "constructor" = JsHeightValue.protoMember "constructor" := by
  refine ⟨by decide, ?_, by decide⟩
  with_unfolding_all decide

/-- C9 (amended): `getDiagramHeight` maps each of the five known diagram
kinds to a fixed numeric pixel height between 300 and 380 inclusive; on
every input string that is neither a known kind nor an `Object.prototype`
member name it returns the numeric default 320; and on each
`Object.prototype` member name it returns the inherited truthy non-numeric
value instead of the default. -/
theorem C9_diagram_height_table :
    (∀ t ∈ knownDiagramTypes, ∃ q : ℚ,
      getDiagramHeight t = JsHeightValue.num q ∧ 300 ≤ q ∧ q ≤ 380) ∧
    (∀ s : String, s ∉ knownDiagramTypes → s ∉ objectProtoMembers →
      getDiagramHeight s = JsHeightValue.num 320) ∧
    (∀ s ∈ objectProtoMembers,
      getDiagramHeight s = JsHeightValue.protoMember s) := by
  refine ⟨?_, ?_, ?_⟩
  · intro t ht
    simp only [knownDiagramTypes, List.mem_cons, List.not_mem_nil, or_false] at ht
    rcases ht with h | h | h | h | h <;> subst h
    · exact ⟨350, by with_unfolding_all decide, by decide, by decide⟩
    · exact ⟨340, by with_unfolding_all decide, by decide, by decide⟩
    · exact ⟨300, by with_unfolding_all decide, by decide, by decide⟩
    · exact ⟨380, by with_unfolding_all decide, by decide, by decide⟩
    · exact ⟨360, by with_unfolding_all decide, by decide, by decide⟩
  · intro s hs hp
    simp only [knownDiagramTypes, List.mem_cons, List.not_mem_nil, or_false, not_or] at hs
    obtain ⟨k1, k2, k3, k4, k5⟩ := hs
    simp [getDiagramHeight, k1, k2, k3, k4, k5, hp]
  · intro s hs
    fin_cases hs <;> decide

/-- Witness for C9 at the unknown, non-prototype type `"banana"`. -/
theorem C9_diagram_height_table_witness :
    ("banana" : String) ∉ knownDiagramTypes ∧
    ("banana" : String) ∉ objectProtoMembers ∧
    getDiagramHeight "banana" = JsHeightValue.num 320 :=
  ⟨by decide, by decide,
    C9_diagram_height_table.2.1 "banana" (by decide) (by decide)⟩

/-! ## C5: fatigue monotonicity -/

/-- C5: at equal character counters, `rush` at `pageProgress = 0.9` gives a
strictly larger fatigue multiplier than at `0.3`, and `careful-start` at
`pageProgress = 0.05` gives a strictly smaller multiplier than mode
`none`. -/
theorem C5_fatigue_monotonicity (charCount : Nat) :
    fatigueMult "rush" 0.3 charCount < fatigueMult "rush" 0.9 charCount ∧
    fatigueMult "careful-start" 0.05 charCount < fatigueMult "none" 0.05 charCount := by
  have hcf : (1 : ℚ) ≤ 1 + min ((charCount : ℚ) / 6000) 0.4 := by
    have h0 : (0 : ℚ) ≤ min ((charCount : ℚ) / 6000) 0.4 :=
      le_min (by positivity) (by norm_num)
    linarith
  have hrg : ("rush" : String) ≠ "gradual" := by decide
  have hcg : ("careful-start" : String) ≠ "gradual" := by decide
  have hcr : ("careful-start" : String) ≠ "rush" := by decide
  have hng : ("none" : String) ≠ "gradual" := by decide
  have hnr : ("none" : String) ≠ "rush" := by decide
  have hnc : ("none" : String) ≠ "careful-start" := by decide
  unfold fatigueMult
  rw [if_neg hrg, if_neg hrg, if_pos rfl, if_pos rfl, if_neg hcg, if_neg hcr, if_pos rfl,
    if_neg hng, if_neg hnr, if_neg hnc]
  norm_num
  constructor <;> nlinarith [hcf]

/-! ## C4: variation engine determinism -/

/-- C4: two engines created by `createVariationEngine` with identical seed,
fatigue mode and page progress produce bit-identical output sequences on
the same sequence of jitter/tick calls. -/
theorem C4_engine_determinism (jsSin : ℚ → ℚ) (seed1 seed2 : Nat)
    (mode1 mode2 : String) (progress1 progress2 : ℚ) (calls : List VECall)
    (hseed : seed1 = seed2) (hmode : mode1 = mode2) (hprogress : progress1 = progress2) :
    runEngine jsSin (createVariationEngine seed1 mode1 progress1) calls =
      runEngine jsSin (createVariationEngine seed2 mode2 progress2) calls := by
  subst hseed; subst hmode; subst hprogress; rfl

/-- Witness for C4: a concrete run of three calls on two identically
seeded engines. -/
theorem C4_engine_determinism_witness :
    runEngine (fun _ => 0) (createVariationEngine 42 "rush" 0.5)
        [VECall.baselineJitter 1, VECall.tick, VECall.inkBlob, VECall.random] =
      runEngine (fun _ => 0) (createVariationEngine 42 "rush" 0.5)
        [VECall.baselineJitter 1, VECall.tick, VECall.inkBlob, VECall.random] :=
  C4_engine_determinism (fun _ => 0) 42 42 "rush" "rush" 0.5 0.5
    [VECall.baselineJitter 1, VECall.tick, VECall.inkBlob, VECall.random] rfl rfl rfl

/-! ## C10: the mulberry32 generator stays in [0, 1) -/

/-- C10: every value returned by the engine's `random()` — the `mulberry32`
stream underlying all jitter functions, with 32-bit state updates taken
modulo 2^32 — lies in the half-open interval [0, 1). -/
theorem C10_random_in_unit_interval (seed n : Nat) :
    0 ≤ nthRandom seed n ∧ nthRandom seed n < 1 := by
  unfold nthRandom mb32Next
  set a := mb32State seed n with ha
  set a1 := (a % 4294967296 + 0x6D2B79F5) % 4294967296 with ha1
  set t0 := ((a1 ^^^ (a1 >>> 15)) * (a1 ||| 1)) % 4294967296 with ht0
  set m := ((t0 ^^^ (t0 >>> 7)) * (t0 ||| 61)) % 4294967296 with hm
  set t2 := ((t0 + m) % 4294967296) ^^^ t0 with ht2
  set u := t2 ^^^ (t2 >>> 14) with hu
  have h32 : (4294967296 : Nat) = 2 ^ 32 := by norm_num
  have ht0lt : t0 < 2 ^ 32 := by rw [ht0, h32.symm]; exact Nat.mod_lt _ (by norm_num)
  have hsum : (t0 + m) % 4294967296 < 2 ^ 32 := by
    rw [h32.symm]; exact Nat.mod_lt _ (by norm_num)
  have ht2lt : t2 < 2 ^ 32 := by
    rw [ht2]; exact Nat.xor_lt_two_pow hsum ht0lt
  have hsle : t2 >>> 14 ≤ t2 := by
    rw [Nat.shiftRight_eq_div_pow]; exact Nat.div_le_self _ _
  have hshift : t2 >>> 14 < 2 ^ 32 := lt_of_le_of_lt hsle ht2lt
  have hult : u < 2 ^ 32 := by
    rw [hu]; exact Nat.xor_lt_two_pow ht2lt hshift
  constructor
  · exact div_nonneg (Nat.cast_nonneg u) (by norm_num)
  · rw [div_lt_one (by norm_num)]
    have : (u : ℚ) < ((2 ^ 32 : Nat) : ℚ) := by exact_mod_cast hult
    calc (u : ℚ) < ((2 ^ 32 : Nat) : ℚ) := this
      _ = 4294967296 := by norm_num

/-! ## C6: jitter scaling by intensity and fatigue -/

/-- C6 counterexample: `wordStretch` does **not** scale by the fatigue
multiplier — two engines whose fatigue multipliers differ (mode `none`
versus mode `rush` at progress 0.9) return identical `wordStretch`
outputs for the same seed; and doubling the fatigue argument cannot double
a centred `wordStretch` variation because the function never reads it. -/
theorem C6_word_stretch_ignores_fatigue :
    fatigueMult "none" 0 0 ≠ fatigueMult "rush" 0.9 0 ∧
    (runEngine (fun _ => 0) (createVariationEngine 42 "none" 0) [VECall.wordStretch 1]).1 =
      (runEngine (fun _ => 0) (createVariationEngine 42 "rush" 0.9) [VECall.wordStretch 1]).1 := by
  constructor
  · with_unfolding_all decide
  · with_unfolding_all rfl

/-- C6 (amended): the nine centred jitters (baseline, letter spacing,
rotation, size, word spacing, line start, baseline wave, word shift, line
angle) scale their variation multiplicatively by both the caller-supplied
intensity and the fatigue multiplier; `wordStretch` scales its variation by
the intensity only and is independent of fatigue; `inkBlob` takes no
intensity and its occurrence threshold grows with the fatigue multiplier;
`opacityJitter`'s random term scales by the intensity while the fatigue
multiplier enters inversely (more fatigue, no more opacity), clamped to at
most 1. -/
theorem C6_jitter_scaling (jsSin : ℚ → ℚ) (r i f f' base charIndex : ℚ) :
    baselineJitterOut r i f = i * f * baselineJitterOut r 1 1 ∧
    letterSpacingJitterOut r i f = i * f * letterSpacingJitterOut r 1 1 ∧
    rotationJitterOut r i f = i * f * rotationJitterOut r 1 1 ∧
    sizeJitterOut base r i f - base = i * f * (sizeJitterOut base r 1 1 - base) ∧
    wordSpacingJitterOut r i f = i * f * wordSpacingJitterOut r 1 1 ∧
    lineStartJitterOut r i f = i * f * lineStartJitterOut r 1 1 ∧
    baselineWaveOut jsSin charIndex r i f = i * f * baselineWaveOut jsSin charIndex r 1 1 ∧
    wordShiftOut r i f = i * f * wordShiftOut r 1 1 ∧
    lineAngleOut r i f = i * f * lineAngleOut r 1 1 ∧
    wordStretchOut r i - 0.94 = i * (wordStretchOut r 1 - 0.94) ∧
    (f ≤ f' → inkBlobOut r f = true → inkBlobOut r f' = true) ∧
    (0 ≤ r → 0 ≤ i → 0 ≤ f → f ≤ f' → opacityJitterOut r i f' ≤ opacityJitterOut r i f) ∧
    opacityJitterOut r i f ≤ 1 := by
  refine ⟨by unfold baselineJitterOut; ring, by unfold letterSpacingJitterOut; ring,
    by unfold rotationJitterOut; ring, by unfold sizeJitterOut; ring,
    by unfold wordSpacingJitterOut; ring, by unfold lineStartJitterOut; ring,
    by unfold baselineWaveOut; ring, by unfold wordShiftOut; ring,
    by unfold lineAngleOut; ring, by unfold wordStretchOut; ring, ?_, ?_, ?_⟩
  · intro hff hblob
    unfold inkBlobOut at hblob ⊢
    rw [decide_eq_true_iff] at hblob ⊢
    nlinarith
  · intro hr hi hf hff
    unfold opacityJitterOut
    have hnum : (0 : ℚ) ≤ 0.65 + r * 0.35 * i := by nlinarith
    have hden : (0 : ℚ) < f * 0.3 + 0.7 := by nlinarith
    have hden' : f * 0.3 + 0.7 ≤ f' * 0.3 + 0.7 := by nlinarith
    exact min_le_min (div_le_div_of_nonneg_left hnum hden hden') (le_refl 1)
  · exact min_le_right _ _

/-! ## String and join helper lemmas -/

theorem string_ext (a b : String) (h : a.toList = b.toList) : a = b := by
  cases a; cases b; exact congrArg String.mk h

theorem toList_append (a b : String) : (a ++ b).toList = a.toList ++ b.toList := by
  cases a; cases b; rfl

theorem mk_toList (cs : List Char) : (String.mk cs).toList = cs := rfl

theorem length_eq_toList (s : String) : s.length = s.toList.length := rfl

theorem append_length (a b : String) : (a ++ b).length = a.length + b.length := by
  rw [length_eq_toList, toList_append, List.length_append, length_eq_toList, length_eq_toList]

theorem string_ne_empty_of_length (s : String) (h : 0 < s.length) : s ≠ "" := by
  intro he; subst he
  have h0 : ("" : String).length = 0 := rfl
  omega

theorem string_append_assoc (a b c : String) : a ++ b ++ c = a ++ (b ++ c) :=
  string_ext _ _ (by rw [toList_append, toList_append, toList_append, toList_append,
    List.append_assoc])

theorem append_ne_empty_right (a b : String) (hb : b ≠ "") : a ++ b ≠ "" := by
  apply string_ne_empty_of_length
  have hb' : 0 < b.length := by
    rcases Nat.eq_zero_or_pos b.length with h | h
    · exfalso
      apply hb
      apply string_ext
      rw [length_eq_toList] at h
      exact List.length_eq_zero.1 h
    · exact h
  rw [append_length]; omega

theorem glueSp_empty_left (b : String) : glueSp "" b = b := by simp [glueSp]

theorem glueSp_empty_right (a : String) : glueSp a "" = a := by
  unfold glueSp
  by_cases ha : a = "" <;> simp [ha]

theorem glueSp_assoc (a b c : String) : glueSp (glueSp a b) c = glueSp a (glueSp b c) := by
  by_cases ha : a = ""
  · subst ha; rw [glueSp_empty_left, glueSp_empty_left]
  · by_cases hb : b = ""
    · subst hb; rw [glueSp_empty_right, glueSp_empty_left]
    · by_cases hc : c = ""
      · subst hc; rw [glueSp_empty_right, glueSp_empty_right]
      · have hab : a ++ " " ++ b ≠ "" := append_ne_empty_right _ _ hb
        have hbc : b ++ " " ++ c ≠ "" := append_ne_empty_right _ _ hc
        unfold glueSp
        simp only [ha, hb, hc, hab, hbc, if_false, ite_false]
        apply string_ext
        simp [toList_append, List.append_assoc]

theorem joinWith_ne_empty (l : List String) (hne : l ≠ []) (h : ∀ x ∈ l, x ≠ "") :
    joinWith " " l ≠ "" := by
  match l with
  | [] => exact absurd rfl hne
  | [x] => exact h x (by simp)
  | x :: y :: t =>
    show x ++ " " ++ joinWith " " (y :: t) ≠ ""
    apply string_ne_empty_of_length
    rw [append_length, append_length]
    have hsp : (" " : String).length = 1 := rfl
    omega

theorem joinWith_cons (w : String) (rs : List String) (hw : w ≠ "") (hrs : ∀ x ∈ rs, x ≠ "") :
    joinWith " " (w :: rs) = glueSp w (joinWith " " rs) := by
  match rs with
  | [] => show w = glueSp w ""; rw [glueSp_empty_right]
  | r :: t =>
    have hne : joinWith " " (r :: t) ≠ "" := joinWith_ne_empty _ (by simp) hrs
    show w ++ " " ++ joinWith " " (r :: t) = glueSp w (joinWith " " (r :: t))
    unfold glueSp
    rw [if_neg hw, if_neg hne]

theorem joinWith_concat (lines : List String) (c : String) (hc : c ≠ "")
    (hl : ∀ x ∈ lines, x ≠ "") :
    joinWith " " (lines ++ [c]) = glueSp (joinWith " " lines) c := by
  induction lines with
  | nil =>
    show joinWith " " [c] = glueSp "" c
    rw [glueSp_empty_left]
    rfl
  | cons x xs ih =>
    have hx : x ≠ "" := hl x (by simp)
    have hxs : ∀ y ∈ xs, y ≠ "" := fun y hy => hl y (by simp [hy])
    have hxc : ∀ y ∈ xs ++ [c], y ≠ "" := by
      intro y hy
      rcases List.mem_append.1 hy with h | h
      · exact hxs y h
      · simp at h; subst h; exact hc
    have h1 : joinWith " " ((x :: xs) ++ [c]) = glueSp x (joinWith " " (xs ++ [c])) := by
      rw [List.cons_append]; exact joinWith_cons x (xs ++ [c]) hx hxc
    rw [h1, ih hxs, ← glueSp_assoc, (joinWith_cons x xs hx hxs).symm]

/-! ## wordWrap lemmas -/

theorem hardSplit_of_le (fuel : Nat) (w : List Char) (m : ℤ) (h : ¬((w.length : ℤ) > m)) :
    hardSplit fuel w m = some ([], w) := by
  cases fuel <;> (unfold hardSplit; rw [if_neg h])

theorem hardSplit_isSome (m : ℤ) (hm : 2 ≤ m) :
    ∀ fuel (w : List Char), w.length < fuel → (hardSplit fuel w m).isSome := by
  intro fuel
  induction fuel with
  | zero => intro w h; omega
  | succ f ih =>
    intro w h
    unfold hardSplit
    by_cases hw : (w.length : ℤ) > m
    · rw [if_pos hw]
      have htn : ((m - 1).toNat : ℤ) = m - 1 := Int.toNat_of_nonneg (by omega)
      have hlt : (w.drop (m - 1).toNat).length < f := by
        rw [List.length_drop]
        omega
      have hsome := ih _ hlt
      cases hx : hardSplit f (w.drop (m - 1).toNat) m with
      | none => rw [hx] at hsome; simp at hsome
      | some p => rfl
    · rw [if_neg hw]; rfl

theorem hardSplit_spec (m : ℤ) (hm : 2 ≤ m) :
    ∀ (fuel : Nat) (w : List Char) (chunks : List (List Char)) (rem : List Char),
    hardSplit fuel w m = some (chunks, rem) →
    (∀ c ∈ chunks, (c.length : ℤ) = m ∧ c.getLast? = some '-') ∧
    (rem.length : ℤ) ≤ m ∧ (w ≠ [] → rem ≠ []) := by
  intro fuel
  induction fuel with
  | zero =>
    intro w chunks rem h
    unfold hardSplit at h
    by_cases hw : (w.length : ℤ) > m
    · rw [if_pos hw] at h; exact absurd h (by simp)
    · rw [if_neg hw] at h
      simp only [Option.some.injEq, Prod.mk.injEq] at h
      obtain ⟨h1, h2⟩ := h
      subst h1; subst h2
      exact ⟨by simp, by omega, fun hne => hne⟩
  | succ f ih =>
    intro w chunks rem h
    unfold hardSplit at h
    by_cases hw : (w.length : ℤ) > m
    · rw [if_pos hw] at h
      cases hx : hardSplit f (w.drop (m - 1).toNat) m with
      | none => rw [hx] at h; simp at h
      | some p =>
        rw [hx] at h
        simp only [Option.map_some', Option.some.injEq, Prod.mk.injEq] at h
        obtain ⟨h1, h2⟩ := h
        obtain ⟨hchunks, hrem, hne⟩ := ih _ p.1 p.2 (by rw [hx])
        have htn : ((m - 1).toNat : ℤ) = m - 1 := Int.toNat_of_nonneg (by omega)
        have hdropne : w.drop (m - 1).toNat ≠ [] := by
          have : (w.drop (m - 1).toNat).length > 0 := by
            rw [List.length_drop]; omega
          intro hc; rw [hc] at this; simp at this
        constructor
        · intro c hc
          rw [← h1] at hc
          rcases List.mem_cons.1 hc with hhead | htail
          · subst hhead
            constructor
            · rw [List.length_append]
              have hwt : (w.take (m - 1).toNat).length = (m - 1).toNat := by
                rw [List.length_take]
                have : (m - 1).toNat ≤ w.length := by omega
                omega
              simp only [List.length_cons, List.length_nil, hwt]
              omega
            · exact List.getLast?_concat _
          · exact hchunks c htail
        · exact ⟨h2 ▸ hrem, fun _ => h2 ▸ hne hdropne⟩
    · rw [if_neg hw] at h
      simp only [Option.some.injEq, Prod.mk.injEq] at h
      obtain ⟨h1, h2⟩ := h
      subst h1; subst h2
      exact ⟨by simp, by omega, fun hne => hne⟩

theorem wwGo_nil (m : ℤ) (cl : String) (lines : List String) :
    wwGo m [] cl lines = some (lines ++ if cl = "" then [] else [cl]) := rfl

theorem wwGo_fit (m : ℤ) (w : String) (rs : List String) (cl : String) (lines : List String)
    (h : (cl.length : ℤ) + (w.length : ℤ) + 1 ≤ m) :
    wwGo m (w :: rs) cl lines =
      wwGo m rs (if cl = "" then w else cl ++ " " ++ w) lines := by
  conv_lhs => unfold wwGo
  rw [if_pos h]

theorem wwGo_long (m : ℤ) (w : String) (rs : List String) (cl : String) (lines : List String)
    (hfit : ¬((cl.length : ℤ) + (w.length : ℤ) + 1 ≤ m)) (hlong : (w.length : ℤ) > m) :
    wwGo m (w :: rs) cl lines =
      match hardSplit (w.length + 1) w.toList m with
      | none => none
      | some p =>
        wwGo m rs (String.mk p.2)
          ((lines ++ if cl = "" then [] else [cl]) ++ p.1.map String.mk) := by
  conv_lhs => unfold wwGo
  rw [if_neg hfit, if_pos (show m < (w.length : ℤ) from hlong)]

theorem wwGo_short (m : ℤ) (w : String) (rs : List String) (cl : String) (lines : List String)
    (hfit : ¬((cl.length : ℤ) + (w.length : ℤ) + 1 ≤ m)) (hlong : ¬((w.length : ℤ) > m)) :
    wwGo m (w :: rs) cl lines =
      wwGo m rs w (lines ++ if cl = "" then [] else [cl]) := by
  conv_lhs => unfold wwGo
  rw [if_neg hfit, if_neg (show ¬(m < (w.length : ℤ)) from hlong)]

theorem ww_extend (m : ℤ) :
    ∀ (rs : List String) (cl : String) (lines : List String),
    wwGo m rs cl lines = (wwGo m rs cl []).map (lines ++ ·) := by
  intro rs
  induction rs with
  | nil => intro cl lines; rw [wwGo_nil, wwGo_nil]; simp
  | cons w rs ih =>
    intro cl lines
    by_cases hfit : (cl.length : ℤ) + (w.length : ℤ) + 1 ≤ m
    · rw [wwGo_fit m w rs cl lines hfit, wwGo_fit m w rs cl [] hfit, ih _ lines, ih _ []]
    · by_cases hlong : (w.length : ℤ) > m
      · rw [wwGo_long m w rs cl lines hfit hlong, wwGo_long m w rs cl [] hfit hlong]
        cases hx : hardSplit (w.length + 1) w.toList m with
        | none => rfl
        | some p =>
          simp only []
          rw [ih _ ((lines ++ _) ++ _), ih _ (([] ++ _) ++ _)]
          cases wwGo m rs (String.mk p.2) [] <;> simp [List.append_assoc]
      · rw [wwGo_short m w rs cl lines hfit hlong, wwGo_short m w rs cl [] hfit hlong,
          ih _ (lines ++ _), ih _ ([] ++ _)]
        cases wwGo m rs w [] <;> simp [List.append_assoc]

theorem ww_isSome (m : ℤ) :
    ∀ (rs : List String) (cl : String) (lines : List String),
    (2 ≤ m ∨ ∀ w ∈ rs, (w.length : ℤ) ≤ m) → (wwGo m rs cl lines).isSome := by
  intro rs
  induction rs with
  | nil => intro cl lines _; rw [wwGo_nil]; rfl
  | cons w rs ih =>
    intro cl lines hh
    have hh' : 2 ≤ m ∨ ∀ x ∈ rs, (x.length : ℤ) ≤ m := by
      rcases hh with h | h
      · exact Or.inl h
      · exact Or.inr fun x hx => h x (by simp [hx])
    by_cases hfit : (cl.length : ℤ) + (w.length : ℤ) + 1 ≤ m
    · rw [wwGo_fit m w rs cl lines hfit]; exact ih _ _ hh'
    · by_cases hlong : (w.length : ℤ) > m
      · rw [wwGo_long m w rs cl lines hfit hlong]
        rcases hh with hm | hle
        · have hs := hardSplit_isSome m hm (w.length + 1) w.toList (by
            rw [← length_eq_toList]; omega)
          cases hx : hardSplit (w.length + 1) w.toList m with
          | none => rw [hx] at hs; simp at hs
          | some p => exact ih _ _ hh'
        · exact absurd (hle w (by simp)) (by omega)
      · rw [wwGo_short m w rs cl lines hfit hlong]; exact ih _ _ hh'

theorem ww_all_le (m : ℤ) (hm : 2 ≤ m) :
    ∀ (rs : List String) (cl : String) (lines : List String) (res : List String),
    wwGo m rs cl lines = some res → (cl.length : ℤ) ≤ m →
    (∀ l ∈ lines, (l.length : ℤ) ≤ m) → ∀ l ∈ res, (l.length : ℤ) ≤ m := by
  intro rs
  induction rs with
  | nil =>
    intro cl lines res h hcl hlines l hl
    rw [wwGo_nil] at h
    simp only [Option.some.injEq] at h
    subst h
    rcases List.mem_append.1 hl with h | h
    · exact hlines l h
    · by_cases hcle : cl = ""
      · rw [if_pos hcle] at h; simp at h
      · rw [if_neg hcle] at h; simp at h; subst h; exact hcl
  | cons w rs ih =>
    intro cl lines res h hcl hlines l hl
    by_cases hfit : (cl.length : ℤ) + (w.length : ℤ) + 1 ≤ m
    · rw [wwGo_fit m w rs cl lines hfit] at h
      refine ih _ _ _ h ?_ hlines l hl
      by_cases hcle : cl = ""
      · rw [if_pos hcle]
        rw [hcle] at hfit
        have h0 : ("" : String).length = 0 := rfl
        omega
      · rw [if_neg hcle, append_length, append_length]
        have h1 : (" " : String).length = 1 := rfl
        omega
    · have hlines' : ∀ x ∈ (lines ++ if cl = "" then [] else [cl]), (x.length : ℤ) ≤ m := by
        intro x hx
        rcases List.mem_append.1 hx with h1 | h1
        · exact hlines x h1
        · by_cases hcle : cl = ""
          · rw [if_pos hcle] at h1; simp at h1
          · rw [if_neg hcle] at h1; simp at h1; subst h1; exact hcl
      by_cases hlong : (w.length : ℤ) > m
      · rw [wwGo_long m w rs cl lines hfit hlong] at h
        cases hx : hardSplit (w.length + 1) w.toList m with
        | none => rw [hx] at h; simp at h
        | some p =>
          rw [hx] at h
          simp only [] at h
          obtain ⟨hchunks, hrem, -⟩ := hardSplit_spec m hm _ _ p.1 p.2 (by rw [hx])
          refine ih _ _ _ h ?_ ?_ l hl
          · show ((String.mk p.2).length : ℤ) ≤ m
            rw [show (String.mk p.2).length = p.2.length from rfl]
            exact hrem
          · intro x hx'
            rcases List.mem_append.1 hx' with h1 | h1
            · exact hlines' x h1
            · obtain ⟨c, hc, hcx⟩ := List.mem_map.1 h1
              subst hcx
              rw [show (String.mk c).length = c.length from rfl]
              exact le_of_eq (hchunks c hc).1
      · rw [wwGo_short m w rs cl lines hfit hlong] at h
        exact ih _ _ _ h (by omega) hlines' l hl

theorem string_ne_of_toList_ne (s : String) (h : s.toList ≠ []) : s ≠ "" := by
  intro he; subst he; exact h rfl

theorem ww_head_starts (m : ℤ) :
    ∀ (rs : List String) (cl : String) (lines : List String) (res : List String),
    cl ≠ "" → wwGo m rs cl lines = some res →
    ∃ l post, res = lines ++ l :: post ∧ l.toList.take cl.toList.length = cl.toList := by
  intro rs
  induction rs with
  | nil =>
    intro cl lines res hcl h
    rw [wwGo_nil, if_neg hcl] at h
    simp only [Option.some.injEq] at h
    subst h
    exact ⟨cl, [], rfl, List.take_length cl.toList⟩
  | cons w rs ih =>
    intro cl lines res hcl h
    by_cases hfit : (cl.length : ℤ) + (w.length : ℤ) + 1 ≤ m
    · rw [wwGo_fit m w rs cl lines hfit, if_neg hcl] at h
      have hcl2 : cl ++ " " ++ w ≠ "" := by
        apply string_ne_empty_of_length
        rw [append_length, append_length]
        have h1 : (" " : String).length = 1 := rfl
        omega
      obtain ⟨l, post, hres, htake⟩ := ih _ _ _ hcl2 h
      refine ⟨l, post, hres, ?_⟩
      have hlist : (cl ++ " " ++ w).toList = cl.toList ++ ((" " : String).toList ++ w.toList) := by
        rw [toList_append, toList_append, List.append_assoc]
      rw [hlist] at htake
      calc l.toList.take cl.toList.length
          = (l.toList.take (cl.toList ++ ((" " : String).toList ++ w.toList)).length).take
              cl.toList.length := by
            rw [List.take_take]
            congr 1
            rw [List.length_append]
            omega
        _ = cl.toList := by rw [htake, List.take_left]
    · by_cases hlong : (w.length : ℤ) > m
      · rw [wwGo_long m w rs cl lines hfit hlong, if_neg hcl] at h
        cases hx : hardSplit (w.length + 1) w.toList m with
        | none => rw [hx] at h; simp at h
        | some p =>
          rw [hx] at h
          simp only [] at h
          rw [ww_extend] at h
          cases hwx : wwGo m rs (String.mk p.2) [] with
          | none => rw [hwx] at h; simp at h
          | some suffix =>
            rw [hwx] at h
            simp only [Option.map_some', Option.some.injEq] at h
            refine ⟨cl, p.1.map String.mk ++ suffix, ?_, List.take_length cl.toList⟩
            rw [← h]
            simp [List.append_assoc]
      · rw [wwGo_short m w rs cl lines hfit hlong, if_neg hcl] at h
        rw [ww_extend] at h
        cases hwx : wwGo m rs w [] with
        | none => rw [hwx] at h; simp at h
        | some suffix =>
          rw [hwx] at h
          simp only [Option.map_some', Option.some.injEq] at h
          refine ⟨cl, suffix, ?_, List.take_length cl.toList⟩
          rw [← h]
          simp [List.append_assoc]

theorem ww_split_appears (m : ℤ) (hm : 2 ≤ m) :
    ∀ (rs : List String) (cl : String) (lines : List String) (res : List String),
    wwGo m rs cl lines = some res →
    ∀ w ∈ rs, (w.length : ℤ) > m →
    ∃ chunks rem pre l post,
      hardSplit (w.length + 1) w.toList m = some (chunks, rem) ∧
      res = pre ++ chunks.map String.mk ++ l :: post ∧
      l.toList.take rem.length = rem ∧
      (∀ c ∈ chunks, (c.length : ℤ) = m ∧ c.getLast? = some '-') := by
  intro rs
  induction rs with
  | nil => intro cl lines res _ w hw; simp at hw
  | cons w' rs ih =>
    intro cl lines res h w hw hwlong
    rcases List.mem_cons.1 hw with heq | htail
    · subst heq
      have hfit : ¬((cl.length : ℤ) + (w.length : ℤ) + 1 ≤ m) := by
        have : (0 : ℤ) ≤ (cl.length : ℤ) := Int.ofNat_nonneg _
        omega
      rw [wwGo_long m w rs cl lines hfit hwlong] at h
      cases hx : hardSplit (w.length + 1) w.toList m with
      | none => rw [hx] at h; simp at h
      | some p =>
        rw [hx] at h
        simp only [] at h
        obtain ⟨hchunks, hrem, hne⟩ := hardSplit_spec m hm _ _ p.1 p.2 (by rw [hx])
        have hwne : w.toList ≠ [] := by
          intro hc
          have : w.toList.length = 0 := by rw [hc]; rfl
          rw [length_eq_toList] at hwlong
          omega
        have hremne : p.2 ≠ [] := hne hwne
        have hmkne : String.mk p.2 ≠ "" := string_ne_of_toList_ne _ (by rw [mk_toList]; exact hremne)
        obtain ⟨l, post, hres, htake⟩ := ww_head_starts m rs _ _ _ hmkne h
        refine ⟨p.1, p.2, lines ++ (if cl = "" then [] else [cl]), l, post, rfl, ?_, ?_, hchunks⟩
        · rw [hres]
        · rw [mk_toList] at htake
          exact htake
    · by_cases hfit : (cl.length : ℤ) + (w'.length : ℤ) + 1 ≤ m
      · rw [wwGo_fit m w' rs cl lines hfit] at h
        exact ih _ _ _ h w htail hwlong
      · by_cases hlong : (w'.length : ℤ) > m
        · rw [wwGo_long m w' rs cl lines hfit hlong] at h
          cases hx : hardSplit (w'.length + 1) w'.toList m with
          | none => rw [hx] at h; simp at h
          | some p =>
            rw [hx] at h
            simp only [] at h
            exact ih _ _ _ h w htail hwlong
        · rw [wwGo_short m w' rs cl lines hfit hlong] at h
          exact ih _ _ _ h w htail hwlong

theorem ww_join (m : ℤ) :
    ∀ (rs : List String) (cl : String) (lines : List String) (res : List String),
    (∀ x ∈ rs, x ≠ "" ∧ (x.length : ℤ) ≤ m) → (∀ l ∈ lines, l ≠ "") →
    wwGo m rs cl lines = some res →
    joinWith " " res = glueSp (joinWith " " lines) (glueSp cl (joinWith " " rs)) := by
  intro rs
  induction rs with
  | nil =>
    intro cl lines res _ hlines h
    rw [wwGo_nil] at h
    simp only [Option.some.injEq] at h
    subst h
    by_cases hcl : cl = ""
    · subst hcl
      rw [if_pos rfl, List.append_nil]
      show joinWith " " lines = glueSp (joinWith " " lines) (glueSp "" (joinWith " " []))
      rw [show joinWith " " ([] : List String) = "" from rfl, glueSp_empty_left,
        glueSp_empty_right]
    · rw [if_neg hcl, joinWith_concat lines cl hcl hlines]
      show glueSp (joinWith " " lines) cl =
        glueSp (joinWith " " lines) (glueSp cl (joinWith " " []))
      rw [show joinWith " " ([] : List String) = "" from rfl, glueSp_empty_right]
  | cons w rs ih =>
    intro cl lines res hws hlines h
    have hw : w ≠ "" ∧ (w.length : ℤ) ≤ m := hws w (by simp)
    have hws' : ∀ x ∈ rs, x ≠ "" ∧ (x.length : ℤ) ≤ m := fun x hx => hws x (by simp [hx])
    have hrsne : ∀ x ∈ rs, x ≠ "" := fun x hx => (hws' x hx).1
    have hJcons : joinWith " " (w :: rs) = glueSp w (joinWith " " rs) :=
      joinWith_cons w rs hw.1 hrsne
    by_cases hfit : (cl.length : ℤ) + (w.length : ℤ) + 1 ≤ m
    · rw [wwGo_fit m w rs cl lines hfit] at h
      have hcl2 : (if cl = "" then w else cl ++ " " ++ w) = glueSp cl w := by
        unfold glueSp
        by_cases hcl : cl = ""
        · rw [if_pos hcl, if_pos hcl]
        · rw [if_neg hcl, if_neg hcl, if_neg hw.1]
      rw [hcl2] at h
      rw [ih _ _ _ hws' hlines h, hJcons, glueSp_assoc]
    · by_cases hlong : (w.length : ℤ) > m
      · exact absurd hw.2 (by omega)
      · rw [wwGo_short m w rs cl lines hfit hlong] at h
        by_cases hcl : cl = ""
        · rw [if_pos hcl] at h
          rw [List.append_nil] at h
          rw [ih _ _ _ hws' hlines h, hJcons, hcl, glueSp_empty_left]
        · rw [if_neg hcl] at h
          have hlines' : ∀ l ∈ lines ++ [cl], l ≠ "" := by
            intro l hl
            rcases List.mem_append.1 hl with h1 | h1
            · exact hlines l h1
            · simp at h1; subst h1; exact hcl
          rw [ih _ _ _ hws' hlines' h, joinWith_concat lines cl hcl hlines, hJcons,
            glueSp_assoc]

/-! ## C7: wordWrap -/

theorem wordWrap_empty_eq (m : ℤ) : wordWrap "" m = some [""] := rfl

theorem jsSplitWs_empty : jsSplitWs "" = [""] := rfl

theorem empty_string_length : ("" : String).length = 0 := rfl

/-- C7 counterexample: at line budget 1 the hard-split loop of `wordWrap`
makes no progress (`substring(0, 0) + '-'` never shrinks the word), so the
JS loop diverges on any 2-character word; in the fueled embedding the
result is `none`, not a line list. -/
theorem C7_budget_one_counterexample : wordWrap "ab" 1 = none := by decide

/-- C7 (amended): for every text and every line budget
`maxCharsPerLine ≥ 2` (not 1: see the counterexample), `wordWrap`
terminates and returns a non-empty list of lines each of length at most the
budget, and every word longer than the budget appears hard-split: its
hyphen-terminated chunks (each exactly the budget long, ending in `-`)
occur consecutively in the output followed by a line beginning with the
remainder. -/
theorem C7_wordWrap_hard_split (t : String) (m : ℤ) (hm : 2 ≤ m) :
    ∃ res, wordWrap t m = some res ∧ res ≠ [] ∧ (∀ l ∈ res, (l.length : ℤ) ≤ m) ∧
      ∀ w ∈ jsSplitWs t, (w.length : ℤ) > m →
        ∃ chunks rem pre l post,
          hardSplit (w.length + 1) w.toList m = some (chunks, rem) ∧
          (∀ c ∈ chunks, (c.length : ℤ) = m ∧ c.getLast? = some '-') ∧
          res = pre ++ chunks.map String.mk ++ l :: post ∧
          l.toList.take rem.length = rem := by
  by_cases ht : t = ""
  · subst ht
    refine ⟨[""], rfl, by simp, ?_, ?_⟩
    · intro l hl
      simp at hl
      subst hl
      rw [empty_string_length]
      omega
    · intro w hw hlong
      rw [jsSplitWs_empty] at hw
      simp at hw
      subst hw
      rw [empty_string_length] at hlong
      omega
  · unfold wordWrap
    rw [if_neg ht]
    have hsome := ww_isSome m (jsSplitWs t) "" [] (Or.inl hm)
    cases hres0 : wwGo m (jsSplitWs t) "" [] with
    | none => rw [hres0] at hsome; simp at hsome
    | some res0 =>
      have hle := ww_all_le m hm (jsSplitWs t) "" [] res0 hres0
        (by rw [empty_string_length]; omega) (by simp)
      by_cases hne : res0 = []
      · subst hne
        refine ⟨[""], rfl, by simp, ?_, ?_⟩
        · intro l hl
          simp at hl
          subst hl
          rw [empty_string_length]
          omega
        · intro w hw hlong
          obtain ⟨chunks, rem, pre, l, post, h1, h2, h3, h4⟩ :=
            ww_split_appears m hm (jsSplitWs t) "" [] [] hres0 w hw hlong
          exact absurd h2.symm (by simp)
      · refine ⟨res0, ?_, hne, hle, ?_⟩
        · simp [hne]
        · intro w hw hlong
          obtain ⟨chunks, rem, pre, l, post, h1, h2, h3, h4⟩ :=
            ww_split_appears m hm (jsSplitWs t) "" [] res0 hres0 w hw hlong
          exact ⟨chunks, rem, pre, l, post, h1, h4, h2, h3⟩

/-- Witness for C7 at `t = "abcdef gh"` and budget 4 (the word `abcdef` is
hard-split as `abc-`, `def`). -/
theorem C7_wordWrap_hard_split_witness :
    ∃ res, wordWrap "abcdef gh" (4 : ℤ) = some res ∧ res ≠ [] ∧
      (∀ l ∈ res, (l.length : ℤ) ≤ 4) ∧
      ∀ w ∈ jsSplitWs "abcdef gh", (w.length : ℤ) > 4 →
        ∃ chunks rem pre l post,
          hardSplit (w.length + 1) w.toList 4 = some (chunks, rem) ∧
          (∀ c ∈ chunks, (c.length : ℤ) = 4 ∧ c.getLast? = some '-') ∧
          res = pre ++ chunks.map String.mk ++ l :: post ∧
          l.toList.take rem.length = rem :=
  C7_wordWrap_hard_split "abcdef gh" 4 (by norm_num)

/-! ## Rejoin lemma for normalized texts (C1 support) -/

theorem normalized_ne_empty (t : String) (m : ℤ) (h : NormalizedFor t m) : t ≠ "" := by
  intro he; subst he
  have hmem : "" ∈ jsSplitWs "" := by rw [jsSplitWs_empty]; simp
  exact (h.1 "" hmem).1 rfl

theorem wordWrap_rejoin (t : String) (m : ℤ) (h : NormalizedFor t m) :
    ∃ res, wordWrap t m = some res ∧ joinWith " " res = t ∧ res ≠ [] := by
  have ht : t ≠ "" := normalized_ne_empty t m h
  unfold wordWrap
  rw [if_neg ht]
  have hsome := ww_isSome m (jsSplitWs t) "" []
    (Or.inr fun w hw => (h.1 w hw).2)
  cases hres0 : wwGo m (jsSplitWs t) "" [] with
  | none => rw [hres0] at hsome; simp at hsome
  | some res0 =>
    have hjoin := ww_join m (jsSplitWs t) "" [] res0 h.1 (by simp) hres0
    rw [show joinWith " " ([] : List String) = "" from rfl, glueSp_empty_left,
      glueSp_empty_left, ← h.2] at hjoin
    by_cases hne : res0 = []
    · exfalso
      subst hne
      exact ht hjoin.symm
    · exact ⟨res0, by simp [hne], hjoin, hne⟩

/-! ## fillPage lemmas -/

theorem fillPage_nil (lsp : ℚ) (y : ℚ) (placed : List LaidOutLine) :
    fillPage lsp [] y placed = (placed, []) := rfl

theorem fillPage_text (lsp : ℚ) (s : String) (k : LineKind) (lvl : Nat)
    (ls : List LaidOutLine) (y : ℚ) (placed : List LaidOutLine) :
    fillPage lsp (LaidOutLine.text s k lvl :: ls) y placed =
      if y + lsp > usableHeightQ then (placed, LaidOutLine.text s k lvl :: ls)
      else fillPage lsp ls (y + lsp) (placed ++ [LaidOutLine.text s k lvl]) := rfl

theorem fillPage_diagram (lsp : ℚ) (d : DiagramSpec) (h : ℚ)
    (ls : List LaidOutLine) (y : ℚ) (placed : List LaidOutLine) :
    fillPage lsp (LaidOutLine.diagram d h :: ls) y placed =
      if y + (if h = 0 then 320 else h) > usableHeightQ ∧ placed ≠ [] then
        (placed, LaidOutLine.diagram d h :: ls)
      else fillPage lsp ls (y + (if h = 0 then 320 else h))
        (placed ++ [LaidOutLine.diagram d h]) := rfl

theorem fillPage_split (lsp : ℚ) :
    ∀ (rem : List LaidOutLine) (y : ℚ) (placed : List LaidOutLine),
    ∃ taken, (fillPage lsp rem y placed).1 = placed ++ taken ∧
      rem = taken ++ (fillPage lsp rem y placed).2 := by
  intro rem
  induction rem with
  | nil =>
    intro y placed
    exact ⟨[], by rw [fillPage_nil]; simp, by rw [fillPage_nil]; rfl⟩
  | cons l ls ih =>
    intro y placed
    cases l with
    | text s k lvl =>
      rw [fillPage_text]
      by_cases hb : y + lsp > usableHeightQ
      · rw [if_pos hb]
        exact ⟨[], by simp, by simp⟩
      · rw [if_neg hb]
        obtain ⟨taken, h1, h2⟩ := ih (y + lsp) (placed ++ [LaidOutLine.text s k lvl])
        refine ⟨LaidOutLine.text s k lvl :: taken, ?_, ?_⟩
        · rw [h1]; simp
        · rw [List.cons_append, ← h2]
    | diagram d hh =>
      rw [fillPage_diagram]
      by_cases hb : y + (if hh = 0 then 320 else hh) > usableHeightQ ∧ placed ≠ []
      · rw [if_pos hb]
        exact ⟨[], by simp, by simp⟩
      · rw [if_neg hb]
        obtain ⟨taken, h1, h2⟩ :=
          ih (y + (if hh = 0 then 320 else hh)) (placed ++ [LaidOutLine.diagram d hh])
        refine ⟨LaidOutLine.diagram d hh :: taken, ?_, ?_⟩
        · rw [h1]; simp
        · rw [List.cons_append, ← h2]

/-! ## consumedHeight lemmas -/

theorem consumedHeight_nil (lsp : ℚ) : consumedHeight lsp [] = 0 := rfl

theorem consumedHeight_concat (lsp : ℚ) (a : List LaidOutLine) (l : LaidOutLine) :
    consumedHeight lsp (a ++ [l]) = consumedHeight lsp a + lineSpace lsp l := by
  unfold consumedHeight
  rw [List.map_append, List.sum_append]
  simp

theorem lineSpace_text (lsp : ℚ) (s : String) (k : LineKind) (lvl : Nat) :
    lineSpace lsp (LaidOutLine.text s k lvl) = lsp := rfl

theorem lineSpace_diagram (lsp h : ℚ) (d : DiagramSpec) :
    lineSpace lsp (LaidOutLine.diagram d h) = if h = 0 then 320 else h := rfl

theorem usableHeightQ_nonneg : (0 : ℚ) ≤ usableHeightQ := by
  unfold usableHeightQ A4_HEIGHT_PX TOP_MARGIN BOTTOM_MARGIN
  norm_num

theorem fillPage_heightOk (lsp : ℚ) :
    ∀ (rem : List LaidOutLine) (y : ℚ) (placed : List LaidOutLine),
    y = consumedHeight lsp placed → HeightOk lsp placed →
    HeightOk lsp (fillPage lsp rem y placed).1 := by
  intro rem
  induction rem with
  | nil => intro y placed _ hok; rw [fillPage_nil]; exact hok
  | cons l ls ih =>
    intro y placed hy hok
    cases l with
    | text s k lvl =>
      rw [fillPage_text]
      by_cases hb : y + lsp > usableHeightQ
      · rw [if_pos hb]; exact hok
      · rw [if_neg hb]
        push_neg at hb
        apply ih
        · rw [consumedHeight_concat, lineSpace_text, hy]
        · left
          rw [consumedHeight_concat, lineSpace_text, ← hy]
          exact hb
    | diagram d hh =>
      rw [fillPage_diagram]
      by_cases hb : y + (if hh = 0 then 320 else hh) > usableHeightQ ∧ placed ≠ []
      · rw [if_pos hb]; exact hok
      · rw [if_neg hb]
        push_neg at hb
        apply ih
        · rw [consumedHeight_concat, lineSpace_diagram, hy]
        · by_cases hfits : y + (if hh = 0 then 320 else hh) ≤ usableHeightQ
          · left
            rw [consumedHeight_concat, lineSpace_diagram, ← hy]
            exact hfits
          · have hplaced : placed = [] := hb (by exact lt_of_not_le hfits)
            subst hplaced
            rw [consumedHeight_nil] at hy
            subst hy
            right
            refine ⟨d, hh, by simp, ?_⟩
            rw [lineSpace_diagram]
            linarith [lt_of_not_le hfits]

/-! ## paginateLoop lemmas -/

theorem paginateLoop_empty (lsp : ℚ) (hdr : List LaidOutLine) (fuel : Nat) (isFirst : Bool) :
    paginateLoop lsp hdr fuel [] isFirst = some [] := by
  cases fuel <;> rfl

theorem paginateLoop_zero (lsp : ℚ) (hdr : List LaidOutLine) (l : LaidOutLine)
    (ls : List LaidOutLine) (isFirst : Bool) :
    paginateLoop lsp hdr 0 (l :: ls) isFirst = none := rfl

theorem paginateLoop_succ (lsp : ℚ) (hdr : List LaidOutLine) (fuel : Nat) (l : LaidOutLine)
    (ls : List LaidOutLine) (isFirst : Bool) :
    paginateLoop lsp hdr (fuel + 1) (l :: ls) isFirst =
      match paginateLoop lsp hdr fuel
          (fillPage lsp (l :: ls)
            (((if isFirst then hdr else []).length : ℚ) * lsp)
            (if isFirst then hdr else [])).2 false with
      | none => none
      | some ps =>
        some (⟨(fillPage lsp (l :: ls)
            (((if isFirst then hdr else []).length : ℚ) * lsp)
            (if isFirst then hdr else [])).1, isFirst⟩ :: ps) := rfl

theorem pagesFlat_nil : pagesFlat [] = [] := rfl

theorem pagesFlat_cons (p : Page) (ps : List Page) :
    pagesFlat (p :: ps) = p.lines ++ pagesFlat ps := by
  unfold pagesFlat
  simp

theorem paginateLoop_flat (lsp : ℚ) (hdr : List LaidOutLine) :
    ∀ (fuel : Nat) (l : LaidOutLine) (ls : List LaidOutLine) (isFirst : Bool)
      (pages : List Page),
    paginateLoop lsp hdr fuel (l :: ls) isFirst = some pages →
    pagesFlat pages = (if isFirst then hdr else []) ++ (l :: ls) ∧ pages ≠ [] := by
  intro fuel
  induction fuel with
  | zero =>
    intro l ls isFirst pages h
    rw [paginateLoop_zero] at h
    exact absurd h (by simp)
  | succ fuel ih =>
    intro l ls isFirst pages h
    rw [paginateLoop_succ] at h
    obtain ⟨taken, h1, h2⟩ := fillPage_split lsp (l :: ls)
      (((if isFirst then hdr else []).length : ℚ) * lsp) (if isFirst then hdr else [])
    cases hrest : (fillPage lsp (l :: ls)
        (((if isFirst then hdr else []).length : ℚ) * lsp) (if isFirst then hdr else [])).2 with
    | nil =>
      rw [hrest, paginateLoop_empty] at h
      simp only [Option.some.injEq] at h
      subst h
      rw [hrest, List.append_nil] at h2
      constructor
      · rw [pagesFlat_cons, pagesFlat_nil, List.append_nil, h1, ← h2]
      · simp
    | cons r rs =>
      rw [hrest] at h
      cases hrec : paginateLoop lsp hdr fuel (r :: rs) false with
      | none => rw [hrec] at h; simp at h
      | some ps =>
        rw [hrec] at h
        simp only [Option.some.injEq] at h
        subst h
        obtain ⟨hflat, hne⟩ := ih r rs false ps hrec
        constructor
        · rw [hrest] at h2
          rw [pagesFlat_cons, hflat, h1]
          simp [← h2, List.append_assoc]
        · simp

theorem consumedHeight_all_text (lsp : ℚ) :
    ∀ (lines : List LaidOutLine),
    (∀ l ∈ lines, ∃ s k lvl, l = LaidOutLine.text s k lvl) →
    consumedHeight lsp lines = (lines.length : ℚ) * lsp := by
  intro lines
  induction lines with
  | nil => intro _; rw [consumedHeight_nil]; simp
  | cons l ls ih =>
    intro h
    obtain ⟨s, k, lvl, hl⟩ := h l (by simp)
    subst hl
    have : consumedHeight lsp (LaidOutLine.text s k lvl :: ls) =
        lsp + consumedHeight lsp ls := by
      unfold consumedHeight
      simp [lineSpace_text]
    rw [this, ih (fun x hx => h x (by simp [hx]))]
    simp [List.length_cons]
    ring

theorem mem_ite_list {α : Type} (c : Prop) [Decidable c] (xs ys : List α) (l : α)
    (h : l ∈ if c then xs else ys) : l ∈ xs ∨ l ∈ ys := by
  split at h
  · exact Or.inl h
  · exact Or.inr h

theorem buildHeaderLines_all_text (hi : Option HeaderInfo) :
    ∀ l ∈ buildHeaderLines hi, ∃ s k lvl, l = LaidOutLine.text s k lvl := by
  intro l hl
  cases hi with
  | none => simp [buildHeaderLines] at hl
  | some h =>
    simp only [buildHeaderLines] at hl
    rcases mem_ite_list _ _ _ _ hl with hl | hl
    swap
    · simp at hl
    rcases List.mem_append.1 hl with hl | hl
    swap
    · simp at hl; subst hl; exact ⟨_, _, _, rfl⟩
    rcases List.mem_append.1 hl with hl | hl
    · rcases List.mem_append.1 hl with hl | hl
      · rcases mem_ite_list _ _ _ _ hl with hl | hl
        · simp at hl; subst hl; exact ⟨_, _, _, rfl⟩
        · simp at hl
      · rcases mem_ite_list _ _ _ _ hl with hl | hl
        · simp at hl; subst hl; exact ⟨_, _, _, rfl⟩
        · simp at hl
    · rcases mem_ite_list _ _ _ _ hl with hl | hl
      · simp at hl; subst hl; exact ⟨_, _, _, rfl⟩
      · simp at hl

theorem heightOk_start (lsp : ℚ) (hdr : List LaidOutLine)
    (hhdr : consumedHeight lsp hdr ≤ usableHeightQ)
    (hhdrtext : ∀ l ∈ hdr, ∃ s k lvl, l = LaidOutLine.text s k lvl)
    (start : List LaidOutLine) (hstart : start = hdr ∨ start = []) :
    ((start.length : ℚ) * lsp = consumedHeight lsp start ∧
      HeightOk lsp start) := by
  rcases hstart with h | h
  · rw [h]
    exact ⟨(consumedHeight_all_text lsp hdr hhdrtext).symm, Or.inl hhdr⟩
  · rw [h]
    refine ⟨by rw [consumedHeight_nil]; simp, Or.inl ?_⟩
    rw [consumedHeight_nil]
    exact usableHeightQ_nonneg

theorem paginateLoop_heightOk (lsp : ℚ) (hdr : List LaidOutLine)
    (hhdr : consumedHeight lsp hdr ≤ usableHeightQ)
    (hhdrtext : ∀ l ∈ hdr, ∃ s k lvl, l = LaidOutLine.text s k lvl) :
    ∀ (fuel : Nat) (rem : List LaidOutLine) (isFirst : Bool) (pages : List Page),
    paginateLoop lsp hdr fuel rem isFirst = some pages →
    ∀ p ∈ pages, HeightOk lsp p.lines := by
  intro fuel
  induction fuel with
  | zero =>
    intro rem isFirst pages h p hp
    cases rem with
    | nil =>
      rw [paginateLoop_empty] at h
      simp only [Option.some.injEq] at h
      subst h
      simp at hp
    | cons l ls => rw [paginateLoop_zero] at h; simp at h
  | succ fuel ih =>
    intro rem isFirst pages h p hp
    cases rem with
    | nil =>
      rw [paginateLoop_empty] at h
      simp only [Option.some.injEq] at h
      subst h
      simp at hp
    | cons l ls =>
      rw [paginateLoop_succ] at h
      obtain ⟨hlen, hok⟩ := heightOk_start lsp hdr hhdr hhdrtext (if isFirst then hdr else [])
        (by by_cases hf : isFirst
            · rw [if_pos hf]; exact Or.inl rfl
            · rw [if_neg hf]; exact Or.inr rfl)
      cases hrec : paginateLoop lsp hdr fuel
          (fillPage lsp (l :: ls)
            (((if isFirst then hdr else []).length : ℚ) * lsp)
            (if isFirst then hdr else [])).2 false with
      | none => rw [hrec] at h; simp at h
      | some ps =>
        rw [hrec] at h
        simp only [Option.some.injEq] at h
        subst h
        rcases List.mem_cons.1 hp with hph | hpt
        · subst hph
          exact fillPage_heightOk lsp (l :: ls) _ _ hlen hok
        · exact ih _ _ _ hrec p hpt

theorem paginateLoop_content (lsp : ℚ) (hdr : List LaidOutLine)
    (P : LaidOutLine → Prop) :
    ∀ (fuel : Nat) (rem : List LaidOutLine) (pages : List Page),
    (∀ l ∈ rem, P l) →
    paginateLoop lsp hdr fuel rem false = some pages →
    ∀ p ∈ pages, ∀ l ∈ p.lines, P l := by
  intro fuel
  induction fuel with
  | zero =>
    intro rem pages hrem h p hp
    cases rem with
    | nil =>
      rw [paginateLoop_empty] at h
      simp only [Option.some.injEq] at h
      subst h
      simp at hp
    | cons l ls => rw [paginateLoop_zero] at h; simp at h
  | succ fuel ih =>
    intro rem pages hrem h p hp
    cases rem with
    | nil =>
      rw [paginateLoop_empty] at h
      simp only [Option.some.injEq] at h
      subst h
      simp at hp
    | cons l ls =>
      rw [paginateLoop_succ] at h
      simp only [List.length_nil, if_neg (Bool.false_ne_true), Nat.cast_zero] at h
      obtain ⟨taken, h1, h2⟩ := fillPage_split lsp (l :: ls) ((0 : ℚ) * lsp) []
      cases hrec : paginateLoop lsp hdr fuel
          (fillPage lsp (l :: ls) ((0 : ℚ) * lsp) []).2 false with
      | none => rw [hrec] at h; simp at h
      | some ps =>
        rw [hrec] at h
        simp only [Option.some.injEq] at h
        subst h
        rcases List.mem_cons.1 hp with hph | hpt
        · subst hph
          intro x hx
          show P x
          simp only [] at hx
          rw [h1] at hx
          simp only [List.nil_append] at hx
          apply hrem
          rw [h2]
          exact List.mem_append.2 (Or.inl hx)
        · refine ih _ _ ?_ hrec p hpt
          intro x hx
          apply hrem
          rw [h2]
          exact List.mem_append.2 (Or.inr hx)

theorem paginateLoop_first_split (lsp : ℚ) (hdr : List LaidOutLine) (fuel : Nat)
    (l : LaidOutLine) (ls : List LaidOutLine) (pages : List Page)
    (h : paginateLoop lsp hdr (fuel + 1) (l :: ls) true = some pages) :
    ∃ taken rest ps, pages = ⟨hdr ++ taken, true⟩ :: ps ∧ l :: ls = taken ++ rest ∧
      paginateLoop lsp hdr fuel rest false = some ps := by
  rw [paginateLoop_succ] at h
  simp only [if_pos rfl, if_true] at h
  obtain ⟨taken, h1, h2⟩ := fillPage_split lsp (l :: ls) ((hdr.length : ℚ) * lsp) hdr
  cases hrec : paginateLoop lsp hdr fuel
      (fillPage lsp (l :: ls) ((hdr.length : ℚ) * lsp) hdr).2 false with
  | none => rw [hrec] at h; simp at h
  | some ps =>
    rw [hrec] at h
    simp only [Option.some.injEq] at h
    subst h
    exact ⟨taken, _, ps, by rw [h1], h2, hrec⟩

theorem buildAllLines_content (cpl : ℤ) :
    ∀ (blocks : List Block) (acc out : List LaidOutLine),
    buildAllLines cpl acc blocks = some out →
    (∀ l ∈ acc, isHeaderKindLine l = false) →
    ∀ l ∈ out, isHeaderKindLine l = false := by
  intro blocks
  induction blocks with
  | nil =>
    intro acc out h hacc
    unfold buildAllLines at h
    simp only [Option.some.injEq] at h
    subst h
    exact hacc
  | cons b bs ih =>
    intro acc out h hacc
    cases b with
    | diagram d hh =>
      unfold buildAllLines at h
      refine ih _ _ h ?_
      intro l hl
      rcases List.mem_append.1 hl with h1 | h1
      · exact hacc l h1
      · simp only [List.mem_cons, List.not_mem_nil, or_false] at h1
        rcases h1 with h1 | h1 | h1 <;> subst h1 <;> rfl
    | heading lvl t =>
      unfold buildAllLines at h
      cases hw : wordWrap t (headingBudget cpl) with
      | none => rw [hw] at h; simp at h
      | some wrapped =>
        rw [hw] at h
        refine ih _ _ h ?_
        intro l hl
        rcases List.mem_append.1 hl with h1 | h1
        · rcases List.mem_append.1 h1 with h2 | h2
          · rcases List.mem_append.1 h2 with h3 | h3
            · exact hacc l h3
            · rcases mem_ite_list _ _ _ _ h3 with h4 | h4
              · simp at h4; subst h4; rfl
              · simp at h4
          · obtain ⟨s, _, hs⟩ := List.mem_map.1 h2
            subst hs
            rfl
        · simp at h1; subst h1; rfl
    | paragraph t =>
      unfold buildAllLines at h
      cases hw : wordWrap t cpl with
      | none => rw [hw] at h; simp at h
      | some wrapped =>
        rw [hw] at h
        refine ih _ _ h ?_
        intro l hl
        rcases List.mem_append.1 hl with h1 | h1
        · rcases List.mem_append.1 h1 with h2 | h2
          · exact hacc l h2
          · obtain ⟨s, _, hs⟩ := List.mem_map.1 h2
            subst hs
            rfl
        · simp at h1; subst h1; rfl

/-! ## C2: page height invariant -/

theorem paginateContent_eq (blocks : List Block) (style : StyleConfig)
    (pageType : PageTypeConfig) (hi : Option HeaderInfo) :
    paginateContent blocks style pageType hi =
      match buildAllLines (estimateCharsPerLine style.fontSize pageType) [] blocks with
      | none => none
      | some allLines =>
        match paginateLoop (style.fontSize * style.lineHeight) (buildHeaderLines hi)
            (allLines.length + 1) allLines true with
        | none => none
        | some pages =>
          some (if pages = [] then [⟨buildHeaderLines hi, true⟩] else pages) := rfl

/-- C2 counterexample: with a full header and a style whose line spacing is
1000 px (`fontSize = 10`, `lineHeight = 100`), the four header lines are
placed unconditionally on page 1 and consume 4000 px, exceeding the usable
height 3268 px on a page that is not a single line; the claim as stated
(quantifying over every style) is therefore false. -/
theorem C2_header_overflow_counterexample :
    (paginateContent [Block.paragraph "hello"] ⟨10, 100⟩ ⟨120, none⟩
        (some ⟨"T", "N", "R", "S", "D"⟩)).isSome = true ∧
    ¬ ∀ p ∈ (paginateContent [Block.paragraph "hello"] ⟨10, 100⟩ ⟨120, none⟩
        (some ⟨"T", "N", "R", "S", "D"⟩)).getD [],
      consumedHeight ((10 : ℚ) * 100) p.lines ≤ usableHeightQ ∨ p.lines.length = 1 := by
  constructor
  · with_unfolding_all decide
  · with_unfolding_all decide

/-- C2 (amended): provided the header block itself fits within the usable
height, every page `paginateContent` returns either consumes at most the
usable height (A4 height minus top/bottom margins) or consists of a single
oversized diagram placed alone (never split); the unconditional header
placement on page 1 is the sole source of overflow the counterexample
exhibits. -/
theorem C2_page_height_invariant (blocks : List Block) (style : StyleConfig)
    (pageType : PageTypeConfig) (headerInfo : Option HeaderInfo) (pages : List Page)
    (hpag : paginateContent blocks style pageType headerInfo = some pages)
    (hheader : consumedHeight (style.fontSize * style.lineHeight)
        (buildHeaderLines headerInfo) ≤ usableHeightQ) :
    ∀ p ∈ pages, HeightOk (style.fontSize * style.lineHeight) p.lines := by
  rw [paginateContent_eq] at hpag
  cases hall : buildAllLines (estimateCharsPerLine style.fontSize pageType) [] blocks with
  | none => rw [hall] at hpag; simp at hpag
  | some allLines =>
    rw [hall] at hpag
    simp only [] at hpag
    cases hloop : paginateLoop (style.fontSize * style.lineHeight)
        (buildHeaderLines headerInfo) (allLines.length + 1) allLines true with
    | none => rw [hloop] at hpag; simp at hpag
    | some pages0 =>
      rw [hloop] at hpag
      simp only [Option.some.injEq] at hpag
      subst hpag
      by_cases hp0 : pages0 = []
      · rw [if_pos hp0]
        intro p hp
        simp at hp
        subst hp
        exact Or.inl hheader
      · rw [if_neg hp0]
        exact paginateLoop_heightOk _ _ hheader
          (buildHeaderLines_all_text headerInfo) _ _ _ _ hloop

/-- Witness for C2 on a one-paragraph document at a realistic style. -/
theorem C2_page_height_invariant_witness :
    HeightOk ((50 : ℚ) * 1.5)
      [LaidOutLine.text "hi" LineKind.paragraph 0,
       LaidOutLine.text "" LineKind.spacer 0] :=
  C2_page_height_invariant [Block.paragraph "hi"] ⟨50, 1.5⟩ ⟨120, none⟩ none
    [(⟨[LaidOutLine.text "hi" LineKind.paragraph 0,
        LaidOutLine.text "" LineKind.spacer 0], true⟩ : Page)]
    (by with_unfolding_all decide) (by with_unfolding_all decide)
    ⟨[LaidOutLine.text "hi" LineKind.paragraph 0,
      LaidOutLine.text "" LineKind.spacer 0], true⟩
    (by simp)

/-! ## C8: header lines on page 1 only, in order -/

/-- C8: with a supplied `HeaderInfo`, pagination yields at least one page;
no page beyond the first carries a `header-title` or `header-detail` line;
page 1 is flagged first and starts with the header block; and when all
five header fields are non-empty that block is exactly: title line, then
the Name/Roll No line, then the Subject/Date line, then a spacer. -/
theorem C8_header_first_page_only (blocks : List Block) (style : StyleConfig)
    (pageType : PageTypeConfig) (hi : HeaderInfo) (pages : List Page)
    (hpag : paginateContent blocks style pageType (some hi) = some pages) :
    pages ≠ [] ∧
    (∀ p ∈ pages.drop 1, ∀ l ∈ p.lines, isHeaderKindLine l = false) ∧
    (∀ p ∈ pages.take 1,
      p.isFirstPage = true ∧
      p.lines.take (buildHeaderLines (some hi)).length = buildHeaderLines (some hi)) ∧
    (hi.title ≠ "" → hi.name ≠ "" → hi.rollNumber ≠ "" → hi.subject ≠ "" → hi.date ≠ "" →
      buildHeaderLines (some hi) =
        [LaidOutLine.text hi.title LineKind.headerTitle 0,
         LaidOutLine.text ("Name: " ++ hi.name ++ "     " ++ ("Roll No: " ++ hi.rollNumber))
           LineKind.headerDetail 0,
         LaidOutLine.text ("Subject: " ++ hi.subject ++ "     " ++ ("Date: " ++ hi.date))
           LineKind.headerDetail 0,
         LaidOutLine.text "" LineKind.spacer 0]) := by
  have horder : hi.title ≠ "" → hi.name ≠ "" → hi.rollNumber ≠ "" → hi.subject ≠ "" →
      hi.date ≠ "" →
      buildHeaderLines (some hi) =
        [LaidOutLine.text hi.title LineKind.headerTitle 0,
         LaidOutLine.text ("Name: " ++ hi.name ++ "     " ++ ("Roll No: " ++ hi.rollNumber))
           LineKind.headerDetail 0,
         LaidOutLine.text ("Subject: " ++ hi.subject ++ "     " ++ ("Date: " ++ hi.date))
           LineKind.headerDetail 0,
         LaidOutLine.text "" LineKind.spacer 0] := by
    intro h1 h2 h3 h4 h5
    simp only [buildHeaderLines, h1, h2, h3, h4, h5, if_neg, ite_not, if_true, if_false]
    simp [joinWith]
  rw [paginateContent_eq] at hpag
  cases hall : buildAllLines (estimateCharsPerLine style.fontSize pageType) [] blocks with
  | none => rw [hall] at hpag; simp at hpag
  | some allLines =>
    rw [hall] at hpag
    simp only [] at hpag
    cases hloop : paginateLoop (style.fontSize * style.lineHeight)
        (buildHeaderLines (some hi)) (allLines.length + 1) allLines true with
    | none => rw [hloop] at hpag; simp at hpag
    | some pages0 =>
      rw [hloop] at hpag
      simp only [Option.some.injEq] at hpag
      subst hpag
      by_cases hp0 : pages0 = []
      · rw [if_pos hp0]
        refine ⟨by simp, by simp, ?_, horder⟩
        intro p hp
        simp at hp
        subst hp
        exact ⟨rfl, List.take_length _⟩
      · rw [if_neg hp0]
        cases hallcase : allLines with
        | nil =>
          rw [hallcase, paginateLoop_empty] at hloop
          simp only [Option.some.injEq] at hloop
          exact absurd hloop.symm hp0
        | cons a as =>
          rw [hallcase] at hloop
          obtain ⟨taken, rest, ps, hpages, hsplit, hrec⟩ :=
            paginateLoop_first_split _ _ _ _ _ _ hloop
          subst hpages
          have hcontent : ∀ l ∈ allLines, isHeaderKindLine l = false :=
            buildAllLines_content _ blocks [] allLines hall (by simp)
          refine ⟨by simp, ?_, ?_, horder⟩
          · simp only [List.drop_succ_cons, List.drop_zero]
            refine paginateLoop_content _ _ _ _ _ _ ?_ hrec
            intro l hl
            apply hcontent
            rw [hallcase, hsplit]
            exact List.mem_append.2 (Or.inr hl)
          · intro p hp
            simp at hp
            subst hp
            exact ⟨rfl, List.take_left _ _⟩

/-- Witness for C8 on a one-paragraph document with a full header. -/
theorem C8_header_first_page_only_witness :
    ([(⟨[LaidOutLine.text "T" LineKind.headerTitle 0,
        LaidOutLine.text "Name: N     Roll No: R" LineKind.headerDetail 0,
        LaidOutLine.text "Subject: S     Date: D" LineKind.headerDetail 0,
        LaidOutLine.text "" LineKind.spacer 0,
        LaidOutLine.text "hi" LineKind.paragraph 0,
        LaidOutLine.text "" LineKind.spacer 0], true⟩ : Page)] ≠ []) ∧
    (∀ p ∈ ([(⟨[LaidOutLine.text "T" LineKind.headerTitle 0,
        LaidOutLine.text "Name: N     Roll No: R" LineKind.headerDetail 0,
        LaidOutLine.text "Subject: S     Date: D" LineKind.headerDetail 0,
        LaidOutLine.text "" LineKind.spacer 0,
        LaidOutLine.text "hi" LineKind.paragraph 0,
        LaidOutLine.text "" LineKind.spacer 0], true⟩ : Page)] : List Page).drop 1,
      ∀ l ∈ p.lines, isHeaderKindLine l = false) ∧
    (∀ p ∈ ([(⟨[LaidOutLine.text "T" LineKind.headerTitle 0,
        LaidOutLine.text "Name: N     Roll No: R" LineKind.headerDetail 0,
        LaidOutLine.text "Subject: S     Date: D" LineKind.headerDetail 0,
        LaidOutLine.text "" LineKind.spacer 0,
        LaidOutLine.text "hi" LineKind.paragraph 0,
        LaidOutLine.text "" LineKind.spacer 0], true⟩ : Page)] : List Page).take 1,
      p.isFirstPage = true ∧
      p.lines.take (buildHeaderLines (some ⟨"T", "N", "R", "S", "D"⟩)).length =
        buildHeaderLines (some ⟨"T", "N", "R", "S", "D"⟩)) ∧
    (("T" : String) ≠ "" → ("N" : String) ≠ "" → ("R" : String) ≠ "" →
      ("S" : String) ≠ "" → ("D" : String) ≠ "" →
      buildHeaderLines (some ⟨"T", "N", "R", "S", "D"⟩) =
        [LaidOutLine.text "T" LineKind.headerTitle 0,
         LaidOutLine.text ("Name: " ++ "N" ++ "     " ++ ("Roll No: " ++ "R"))
           LineKind.headerDetail 0,
         LaidOutLine.text ("Subject: " ++ "S" ++ "     " ++ ("Date: " ++ "D"))
           LineKind.headerDetail 0,
         LaidOutLine.text "" LineKind.spacer 0]) :=
  C8_header_first_page_only [Block.paragraph "hi"] ⟨50, 1.5⟩ ⟨120, none⟩
    ⟨"T", "N", "R", "S", "D"⟩ _ (by with_unfolding_all decide)

/-- Witness for C6 at concrete inputs, extracting the baseline scaling
equation and the opacity monotonicity with its hypotheses discharged. -/
theorem C6_jitter_scaling_witness :
    baselineJitterOut 1 1 2 = 1 * 2 * baselineJitterOut 1 1 1 ∧
    opacityJitterOut 1 1 3 ≤ opacityJitterOut 1 1 2 := by
  have h := C6_jitter_scaling (fun _ => 0) 1 1 2 3 5 0
  exact ⟨h.1, h.2.2.2.2.2.2.2.2.2.2.2.1 (by norm_num) (by norm_num) (by norm_num) (by norm_num)⟩

/-! ## runsOf lemmas (C1 support) -/

theorem runsGo_nil_eq (cur : List LaidOutLine) :
    runsGo [] cur = if cur = [] then [] else [cur.reverse] := rfl

theorem runsGo_spacer (ls : List LaidOutLine) (cur : List LaidOutLine) :
    runsGo (spacerLine :: ls) cur =
      if cur = [] then runsGo ls [] else cur.reverse :: runsGo ls [] := rfl

theorem runsGo_nonspacer (ws : List LaidOutLine) (h : ∀ x ∈ ws, isSpacerLine x = false) :
    ∀ (rest cur : List LaidOutLine),
    runsGo (ws ++ rest) cur = runsGo rest (ws.reverse ++ cur) := by
  induction ws with
  | nil => intro rest cur; simp
  | cons w ws ih =>
    intro rest cur
    have hw : isSpacerLine w = false := h w (by simp)
    have hws : ∀ x ∈ ws, isSpacerLine x = false := fun x hx => h x (by simp [hx])
    show runsGo (w :: (ws ++ rest)) cur = _
    have hstep : runsGo (w :: (ws ++ rest)) cur = runsGo (ws ++ rest) (w :: cur) := by
      conv_lhs => unfold runsGo
      rw [hw]
      simp
    rw [hstep, ih hws rest (w :: cur)]
    simp [List.append_assoc]

theorem runsOf_group (ws : List LaidOutLine) (rest : List LaidOutLine)
    (hne : ws ≠ []) (h : ∀ x ∈ ws, isSpacerLine x = false) :
    runsGo (ws ++ spacerLine :: rest) [] = ws :: runsGo rest [] := by
  rw [runsGo_nonspacer ws h (spacerLine :: rest) [], List.append_nil, runsGo_spacer,
    if_neg (by simp [hne]), List.reverse_reverse]

theorem runsOf_lead_spacer (rest : List LaidOutLine) :
    runsGo (spacerLine :: rest) [] = runsGo rest [] := by
  rw [runsGo_spacer, if_pos rfl]

theorem wordWrap_ne_nil (t : String) (m : ℤ) (res : List String)
    (h : wordWrap t m = some res) : res ≠ [] := by
  unfold wordWrap at h
  split at h
  · simp only [Option.some.injEq] at h
    subst h
    simp
  · cases hx : wwGo m (jsSplitWs t) "" [] with
    | none => rw [hx] at h; simp at h
    | some l =>
      rw [hx] at h
      simp only [Option.map_some', Option.some.injEq] at h
      subst h
      by_cases hl : l = []
      · simp [hl]
      · simp [hl]

theorem runToBlock_diagram (d : DiagramSpec) (h : ℚ) :
    runToBlock [LaidOutLine.diagram d h] = Block.diagram d h := rfl

theorem runToBlock_para (s : String) (rest : List LaidOutLine) :
    runToBlock (LaidOutLine.text s LineKind.paragraph 0 :: rest) =
      Block.paragraph (rejoinRun (LaidOutLine.text s LineKind.paragraph 0 :: rest)) := by
  cases rest <;> rfl

theorem runToBlock_heading (s : String) (lvl : Nat) (rest : List LaidOutLine) :
    runToBlock (LaidOutLine.text s LineKind.heading lvl :: rest) =
      Block.heading lvl (rejoinRun (LaidOutLine.text s LineKind.heading lvl :: rest)) := by
  cases rest <;> rfl

theorem rejoinRun_map (wrapped : List String) (k : LineKind) (lvl : Nat) :
    rejoinRun (wrapped.map (fun s => LaidOutLine.text s k lvl)) = joinWith " " wrapped := by
  unfold rejoinRun
  rw [List.map_map]
  have hid : (lineText ∘ fun s => LaidOutLine.text s k lvl) = id := by
    funext s; rfl
  rw [hid, List.map_id]

theorem buildAllLines_nil_eq (cpl : ℤ) (acc : List LaidOutLine) :
    buildAllLines cpl acc [] = some acc := rfl

theorem buildAllLines_diagram_eq (cpl : ℤ) (acc : List LaidOutLine) (d : DiagramSpec)
    (h : ℚ) (bs : List Block) :
    buildAllLines cpl acc (Block.diagram d h :: bs) =
      buildAllLines cpl (acc ++ [spacerLine, LaidOutLine.diagram d h, spacerLine]) bs := rfl

theorem buildAllLines_heading_eq (cpl : ℤ) (acc : List LaidOutLine) (lvl : Nat) (t : String)
    (bs : List Block) :
    buildAllLines cpl acc (Block.heading lvl t :: bs) =
      match wordWrap t (headingBudget cpl) with
      | none => none
      | some wrapped =>
        buildAllLines cpl
          (acc ++ (if acc ≠ [] then [spacerLine] else []) ++
            wrapped.map (fun wl => LaidOutLine.text wl LineKind.heading lvl) ++ [spacerLine]) bs := rfl

theorem buildAllLines_para_eq (cpl : ℤ) (acc : List LaidOutLine) (t : String)
    (bs : List Block) :
    buildAllLines cpl acc (Block.paragraph t :: bs) =
      match wordWrap t cpl with
      | none => none
      | some wrapped =>
        buildAllLines cpl
          (acc ++ wrapped.map (fun wl => LaidOutLine.text wl LineKind.paragraph 0) ++
            [spacerLine]) bs := rfl

theorem buildAllLines_recover (cpl : ℤ) :
    ∀ (blocks : List Block) (acc out : List LaidOutLine),
    (∀ b ∈ blocks, BlockNormalized cpl b) →
    buildAllLines cpl acc blocks = some out →
    ∃ tail, out = acc ++ tail ∧ (runsGo tail []).map runToBlock = blocks := by
  intro blocks
  induction blocks with
  | nil =>
    intro acc out _ h
    rw [buildAllLines_nil_eq] at h
    simp only [Option.some.injEq] at h
    subst h
    exact ⟨[], by simp, by simp [runsGo_nil_eq]⟩
  | cons b bs ih =>
    intro acc out hnorm h
    have hnorm' : ∀ x ∈ bs, BlockNormalized cpl x := fun x hx => hnorm x (by simp [hx])
    cases b with
    | diagram d hh =>
      rw [buildAllLines_diagram_eq] at h
      obtain ⟨tail', hout, hruns⟩ := ih _ _ hnorm' h
      refine ⟨spacerLine :: LaidOutLine.diagram d hh :: spacerLine :: tail', ?_, ?_⟩
      · rw [hout]; simp
      · rw [runsOf_lead_spacer,
          show LaidOutLine.diagram d hh :: spacerLine :: tail' =
            [LaidOutLine.diagram d hh] ++ spacerLine :: tail' from rfl,
          runsOf_group _ _ (by simp) (by intro x hx; simp at hx; subst hx; rfl)]
        simp only [List.map_cons, runToBlock_diagram, hruns]
    | paragraph t =>
      rw [buildAllLines_para_eq] at h
      have hn : NormalizedFor t cpl := hnorm (Block.paragraph t) (by simp)
      obtain ⟨wrapped, hww, hjoin, hwne⟩ := wordWrap_rejoin t cpl hn
      rw [hww] at h
      simp only [] at h
      obtain ⟨tail', hout, hruns⟩ := ih _ _ hnorm' h
      refine ⟨wrapped.map (fun wl => LaidOutLine.text wl LineKind.paragraph 0) ++
        spacerLine :: tail', ?_, ?_⟩
      · rw [hout]; simp
      · rw [runsOf_group _ _ (by simp [hwne])
          (by intro x hx
              obtain ⟨s, _, hs⟩ := List.mem_map.1 hx
              subst hs
              rfl)]
        simp only [List.map_cons, hruns]
        congr 1
        cases hwcase : wrapped with
        | nil => exact absurd hwcase hwne
        | cons w0 wrest =>
          simp only [List.map_cons]
          rw [runToBlock_para]
          rw [show LaidOutLine.text w0 LineKind.paragraph 0 ::
              wrest.map (fun wl => LaidOutLine.text wl LineKind.paragraph 0) =
            (w0 :: wrest).map (fun wl => LaidOutLine.text wl LineKind.paragraph 0) from rfl]
          rw [rejoinRun_map, ← hwcase, hjoin]
    | heading lvl t =>
      rw [buildAllLines_heading_eq] at h
      have hn : t = "" ∨ NormalizedFor t (headingBudget cpl) :=
        hnorm (Block.heading lvl t) (by simp)
      have hwrap : ∃ wrapped, wordWrap t (headingBudget cpl) = some wrapped ∧
          joinWith " " wrapped = t ∧ wrapped ≠ [] := by
        rcases hn with hte | hn
        · subst hte
          exact ⟨[""], rfl, rfl, by simp⟩
        · exact wordWrap_rejoin t _ hn
      obtain ⟨wrapped, hww, hjoin, hwne⟩ := hwrap
      rw [hww] at h
      simp only [] at h
      obtain ⟨tail', hout, hruns⟩ := ih _ _ hnorm' h
      refine ⟨(if acc ≠ [] then [spacerLine] else []) ++
        (wrapped.map (fun wl => LaidOutLine.text wl LineKind.heading lvl) ++
          spacerLine :: tail'), ?_, ?_⟩
      · rw [hout]; simp [List.append_assoc]
      · have hgroup : runsGo (wrapped.map (fun wl => LaidOutLine.text wl LineKind.heading lvl) ++
            spacerLine :: tail') [] =
            wrapped.map (fun wl => LaidOutLine.text wl LineKind.heading lvl) ::
              runsGo tail' [] := by
          apply runsOf_group _ _ (by simp [hwne])
          intro x hx
          obtain ⟨s, _, hs⟩ := List.mem_map.1 hx
          subst hs
          rfl
        have hrtb : runToBlock (wrapped.map (fun wl => LaidOutLine.text wl LineKind.heading lvl)) =
            Block.heading lvl t := by
          cases hwcase : wrapped with
          | nil => exact absurd hwcase hwne
          | cons w0 wrest =>
            simp only [List.map_cons]
            rw [runToBlock_heading]
            rw [show LaidOutLine.text w0 LineKind.heading lvl ::
                wrest.map (fun wl => LaidOutLine.text wl LineKind.heading lvl) =
              (w0 :: wrest).map (fun wl => LaidOutLine.text wl LineKind.heading lvl) from rfl]
            rw [rejoinRun_map, ← hwcase, hjoin]
        by_cases hacc : acc = []
        · rw [if_neg (by simp [hacc])]
          simp only [List.nil_append]
          rw [hgroup]
          simp only [List.map_cons, hrtb, hruns]
        · rw [if_pos (by simp [hacc]), List.singleton_append, runsOf_lead_spacer, hgroup]
          simp only [List.map_cons, hrtb, hruns]

/-! ## C1: pagination reproduces the structured blocks -/

theorem blocksOfLines_eq (ls : List LaidOutLine) :
    blocksOfLines ls = (runsGo ls []).map runToBlock := rfl

/-- C1 counterexample: at `fontSize = 1000` the estimated budget is 4
characters, so the single word `hello` is hyphen-split into `hel-` / `lo`;
rejoining the wrapped lines of the paragraph with spaces yields
`"hel- lo"`, not `"hello"`, so the reproduction claim fails as stated. -/
theorem C1_rejoin_counterexample :
    (paginateContent (parseText "hello") ⟨1000, 1⟩ ⟨120, none⟩ none).isSome = true ∧
    (paginateContent (parseText "hello") ⟨1000, 1⟩ ⟨120, none⟩ none).map
        (fun ps => blocksOfLines ((pagesFlat ps).drop (buildHeaderLines none).length)) ≠
      some (parseText "hello") := by
  constructor
  · with_unfolding_all decide
  · with_unfolding_all decide

/-- C1 (amended): for every input text whose paragraph and heading texts
are normalized for their wrap budgets (single-space separated, words within
the line budget — exactly the texts `wordWrap` does not hyphen-split or
whitespace-collapse), whenever `paginateContent (parseText t)` returns, it
returns at least one page, and recovering the blocks from the concatenated
laid-out lines of all pages (past the header block) reproduces
`parseText t` exactly: every block present, in order, none dropped or
duplicated, paragraphs and headings rejoining to their original texts. -/
theorem C1_pagination_reproduces_blocks (t : String) (style : StyleConfig)
    (pageType : PageTypeConfig) (hi : Option HeaderInfo) (pages : List Page)
    (hpag : paginateContent (parseText t) style pageType hi = some pages)
    (hnorm : ∀ b ∈ parseText t,
      BlockNormalized (estimateCharsPerLine style.fontSize pageType) b) :
    pages ≠ [] ∧
    blocksOfLines ((pagesFlat pages).drop (buildHeaderLines hi).length) = parseText t := by
  rw [paginateContent_eq] at hpag
  cases hall : buildAllLines (estimateCharsPerLine style.fontSize pageType) [] (parseText t) with
  | none => rw [hall] at hpag; simp at hpag
  | some allLines =>
    rw [hall] at hpag
    simp only [] at hpag
    obtain ⟨tail, htail, hrec⟩ := buildAllLines_recover _ (parseText t) [] allLines hnorm hall
    simp only [List.nil_append] at htail
    subst htail
    cases hloop : paginateLoop (style.fontSize * style.lineHeight)
        (buildHeaderLines hi) (allLines.length + 1) allLines true with
    | none => rw [hloop] at hpag; simp at hpag
    | some pages0 =>
      rw [hloop] at hpag
      simp only [Option.some.injEq] at hpag
      subst hpag
      cases htl : allLines with
      | nil =>
        rw [htl, paginateLoop_empty] at hloop
        simp only [Option.some.injEq] at hloop
        subst hloop
        rw [if_pos rfl]
        refine ⟨by simp, ?_⟩
        have hflat : pagesFlat [(⟨buildHeaderLines hi, true⟩ : Page)] = buildHeaderLines hi := by
          rw [pagesFlat_cons, pagesFlat_nil, List.append_nil]
        rw [hflat, List.drop_length, blocksOfLines_eq, ← hrec, htl]
      | cons a as =>
        rw [htl] at hloop
        obtain ⟨hflat, hne⟩ := paginateLoop_flat _ _ _ _ _ _ _ hloop
        rw [if_neg hne]
        refine ⟨hne, ?_⟩
        rw [hflat]
        simp only [if_pos rfl, if_true]
        rw [List.drop_left, blocksOfLines_eq, ← hrec, htl]

/-- Witness for C1 on the two-word text `"hi there"` at a realistic
style. -/
theorem C1_pagination_reproduces_blocks_witness :
    ([(⟨[LaidOutLine.text "hi there" LineKind.paragraph 0,
        LaidOutLine.text "" LineKind.spacer 0], true⟩ : Page)] ≠ []) ∧
    blocksOfLines ((pagesFlat [(⟨[LaidOutLine.text "hi there" LineKind.paragraph 0,
        LaidOutLine.text "" LineKind.spacer 0], true⟩ : Page)]).drop
      (buildHeaderLines none).length) = parseText "hi there" :=
  C1_pagination_reproduces_blocks "hi there" ⟨50, 1.5⟩ ⟨120, none⟩ none _
    (by with_unfolding_all decide) (by with_unfolding_all decide)

/-! ## C3: diagram marker round-trip -/

theorem mk_data (s : String) : String.mk s.toList = s := by cases s; rfl

theorem takeWhile_append_all {α : Type} (p : α → Bool) (xs ys : List α)
    (h : ∀ x ∈ xs, p x = true) :
    (xs ++ ys).takeWhile p = xs ++ ys.takeWhile p := by
  induction xs with
  | nil => simp
  | cons a l ih =>
    have ha : p a = true := h a (by simp)
    simp only [List.cons_append, List.takeWhile_cons, ha, if_true]
    rw [ih (fun x hx => h x (by simp [hx]))]

theorem dropWhile_append_all {α : Type} (p : α → Bool) (xs ys : List α)
    (h : ∀ x ∈ xs, p x = true) :
    (xs ++ ys).dropWhile p = ys.dropWhile p := by
  induction xs with
  | nil => simp
  | cons a l ih =>
    have ha : p a = true := h a (by simp)
    simp only [List.cons_append, List.dropWhile_cons, ha, if_true]
    exact ih (fun x hx => h x (by simp [hx]))

theorem dropWhile_append_ne {α : Type} (p : α → Bool) :
    ∀ (xs ys : List α), xs.dropWhile p ≠ [] →
    (xs ++ ys).dropWhile p = xs.dropWhile p ++ ys := by
  intro xs
  induction xs with
  | nil => intro ys h; simp at h
  | cons a l ih =>
    intro ys h
    by_cases ha : p a = true
    · simp only [List.dropWhile_cons, ha, if_true] at h ⊢
      simp only [List.cons_append, List.dropWhile_cons, ha, if_true]
      exact ih ys h
    · simp only [List.dropWhile_cons, ha] at h ⊢
      simp [Bool.not_eq_true] at ha
      simp [List.dropWhile_cons, ha]

theorem trimChars_cons_space (l : List Char) : trimChars (' ' :: l) = trimChars l := by
  unfold trimChars
  congr 1

theorem trimChars_concat_space (l : List Char) : trimChars (l ++ [' ']) = trimChars l := by
  unfold trimChars
  cases hdl : l.dropWhile isJsSpace with
  | nil =>
    have h1 : (l ++ [' ']).dropWhile isJsSpace = [' '].dropWhile isJsSpace :=
      dropWhile_append_all _ _ _ (by
        intro x hx
        by_contra hns
        have := List.dropWhile_eq_nil_iff.1 hdl x hx
        simp_all)
    have h2 : ([' '] : List Char).dropWhile isJsSpace = [] := rfl
    rw [h1, h2]
  | cons a as =>
    have h1 : (l ++ [' ']).dropWhile isJsSpace = (a :: as) ++ [' '] := by
      rw [dropWhile_append_ne _ _ _ (by rw [hdl]; simp), hdl]
    rw [h1]
    have h2 : ((a :: as) ++ [' ']).reverse = ' ' :: (a :: as).reverse := by
      simp
    rw [h2]
    have h3 : (' ' :: (a :: as).reverse).dropWhile isJsSpace
        = ((a :: as).reverse).dropWhile isJsSpace := rfl
    rw [h3]

theorem word_not_space (c : Char) (h : isWordChar c = true) : isJsSpace c = false := by
  by_cases h1 : c = ' '
  · subst h1; exact absurd h (by decide)
  by_cases h2 : c = '\t'
  · subst h2; exact absurd h (by decide)
  by_cases h3 : c = '\n'
  · subst h3; exact absurd h (by decide)
  by_cases h4 : c = '\r'
  · subst h4; exact absurd h (by decide)
  by_cases h5 : c = '\x0b'
  · subst h5; exact absurd h (by decide)
  by_cases h6 : c = '\x0c'
  · subst h6; exact absurd h (by decide)
  by_cases h7 : c = ' '
  · subst h7; exact absurd h (by decide)
  simp [isJsSpace, h1, h2, h3, h4, h5, h6, h7]

theorem matchMarkerAt_serialized (tyl T D : List Char)
    (htyne : tyl ≠ [])
    (hty : ∀ c ∈ tyl, isWordChar c = true)
    (hT : ∀ c ∈ T, c ≠ '|')
    (hD : ∀ c ∈ D, isDotChar c = true) :
    matchMarkerAt ('[' :: 'D' :: 'I' :: 'A' :: 'G' :: 'R' :: 'A' :: 'M' :: ':' :: ' ' ::
        (tyl ++ ' ' :: '|' :: ' ' :: (T ++ ' ' :: '|' :: ' ' :: (D ++ [']'])))) =
      some ⟨String.mk (trimChars (tyl.map Char.toLower)),
            String.mk (trimChars T), String.mk (trimChars D)⟩ := by
  have hpre : ciPrefixOf markerLit
      ('[' :: 'D' :: 'I' :: 'A' :: 'G' :: 'R' :: 'A' :: 'M' :: ':' :: ' ' ::
        (tyl ++ ' ' :: '|' :: ' ' :: (T ++ ' ' :: '|' :: ' ' :: (D ++ [']'])))) = true := rfl
  have e2 : (('[' :: 'D' :: 'I' :: 'A' :: 'G' :: 'R' :: 'A' :: 'M' :: ':' :: ' ' ::
        (tyl ++ ' ' :: '|' :: ' ' :: (T ++ ' ' :: '|' :: ' ' :: (D ++ [']'])))).drop 9).dropWhile
        isJsSpace = tyl ++ ' ' :: '|' :: ' ' :: (T ++ ' ' :: '|' :: ' ' :: (D ++ [']'])) := by
    show (' ' :: (tyl ++ ' ' :: '|' :: ' ' :: (T ++ ' ' :: '|' :: ' ' ::
        (D ++ [']'])))).dropWhile isJsSpace = _
    rw [show (' ' :: (tyl ++ ' ' :: '|' :: ' ' :: (T ++ ' ' :: '|' :: ' ' ::
        (D ++ [']'])))).dropWhile isJsSpace
      = (tyl ++ ' ' :: '|' :: ' ' :: (T ++ ' ' :: '|' :: ' ' ::
        (D ++ [']']))).dropWhile isJsSpace from rfl]
    cases tyl with
    | nil => exact absurd rfl htyne
    | cons a t =>
      have ha : isJsSpace a = false := word_not_space a (hty a (by simp))
      simp [List.dropWhile_cons, ha]
  have e3 : (tyl ++ ' ' :: '|' :: ' ' :: (T ++ ' ' :: '|' :: ' ' ::
      (D ++ [']']))).takeWhile isWordChar = tyl := by
    rw [takeWhile_append_all _ _ _ hty]
    rw [show (' ' :: '|' :: ' ' :: (T ++ ' ' :: '|' :: ' ' ::
      (D ++ [']']))).takeWhile isWordChar = [] from rfl]
    exact List.append_nil tyl
  have e4 : (tyl ++ ' ' :: '|' :: ' ' :: (T ++ ' ' :: '|' :: ' ' ::
      (D ++ [']']))).dropWhile isWordChar
      = ' ' :: '|' :: ' ' :: (T ++ ' ' :: '|' :: ' ' :: (D ++ [']'])) := by
    rw [dropWhile_append_all _ _ _ hty]
    rfl
  have e5 : (' ' :: '|' :: ' ' :: (T ++ ' ' :: '|' :: ' ' ::
      (D ++ [']']))).dropWhile isJsSpace
      = '|' :: (' ' :: (T ++ ' ' :: '|' :: ' ' :: (D ++ [']']))) := rfl
  have hTb : ∀ c ∈ T, (fun c => !(c = '|')) c = true := by
    intro c hc
    simp [hT c hc]
  have e6 : (' ' :: (T ++ ' ' :: '|' :: ' ' :: (D ++ [']']))).takeWhile
      (fun c => !(c = '|')) = ' ' :: (T ++ [' ']) := by
    rw [show (' ' :: (T ++ ' ' :: '|' :: ' ' :: (D ++ [']']))).takeWhile
        (fun c => !(c = '|'))
      = ' ' :: ((T ++ ' ' :: '|' :: ' ' :: (D ++ [']'])).takeWhile
        (fun c => !(c = '|'))) from rfl]
    rw [takeWhile_append_all _ _ _ hTb]
    rw [show (' ' :: '|' :: ' ' :: (D ++ [']'])).takeWhile (fun c => !(c = '|'))
      = [' '] from rfl]
  have e7 : (' ' :: (T ++ ' ' :: '|' :: ' ' :: (D ++ [']']))).dropWhile
      (fun c => !(c = '|')) = '|' :: (' ' :: (D ++ [']'])) := by
    rw [show (' ' :: (T ++ ' ' :: '|' :: ' ' :: (D ++ [']']))).dropWhile
        (fun c => !(c = '|'))
      = (T ++ ' ' :: '|' :: ' ' :: (D ++ [']'])).dropWhile
        (fun c => !(c = '|')) from rfl]
    rw [dropWhile_append_all _ _ _ hTb]
    rfl
  have e8 : (' ' :: (D ++ [']'])).takeWhile isDotChar = ' ' :: (D ++ [']']) := by
    rw [show (' ' :: (D ++ [']'])).takeWhile isDotChar
      = ' ' :: ((D ++ [']']).takeWhile isDotChar) from rfl]
    rw [takeWhile_append_all _ _ _ hD]
    rw [show ([']'] : List Char).takeWhile isDotChar = [']'] from rfl]
  have e9 : takeToLastClose (' ' :: (D ++ [']'])) = some (' ' :: D) := by
    unfold takeToLastClose
    have hrev : (' ' :: (D ++ [']'])).reverse = ']' :: (D.reverse ++ [' ']) := by
      simp
    rw [hrev]
    rw [show (']' :: (D.reverse ++ [' '])).dropWhile (fun c => !(c = ']'))
      = ']' :: (D.reverse ++ [' ']) from rfl]
    simp
  have eS : trimChars (' ' :: (T ++ [' '])) = trimChars T := by
    rw [trimChars_cons_space, trimChars_concat_space]
  have eD : trimChars (' ' :: D) = trimChars D := trimChars_cons_space D
  unfold matchMarkerAt
  rw [if_pos hpre]
  simp only [e2, e3, e4, e5, e6, e7, e8, e9]
  rw [if_neg htyne]
  rw [if_neg (show ¬(' ' :: (T ++ [' ']) = []) by simp)]
  rw [if_neg (show ¬(' ' :: D = []) by simp)]
  rw [eS, eD]

theorem findMarker_cons_of_match (c : Char) (cs : List Char) (d : DiagramSpec)
    (h : matchMarkerAt (c :: cs) = some d) : findMarker (c :: cs) = some d := by
  unfold findMarker
  rw [h]

theorem parse_serialized_of (ty title description : String)
    (hty1 : ty.toList ≠ [])
    (hty2 : ∀ c ∈ ty.toList, isWordChar c = true)
    (hty3 : String.mk (trimChars (ty.toList.map Char.toLower)) = ty)
    (htp : ∀ c ∈ title.toList, c ≠ '|')
    (htt : trimChars title.toList = title.toList)
    (hdd : ∀ c ∈ description.toList, isDotChar c = true)
    (hdt : trimChars description.toList = description.toList) :
    parseDiagramMarker (serializeMarker ty title description)
      = some ⟨ty, title, description⟩ := by
  have hshape : (serializeMarker ty title description).toList
      = '[' :: 'D' :: 'I' :: 'A' :: 'G' :: 'R' :: 'A' :: 'M' :: ':' :: ' ' ::
        (ty.toList ++ ' ' :: '|' :: ' ' ::
          (title.toList ++ ' ' :: '|' :: ' ' :: (description.toList ++ [']']))) := by
    unfold serializeMarker
    rw [toList_append, toList_append, toList_append, toList_append, toList_append]
    simp only [List.append_assoc]
    rfl
  show findMarker (serializeMarker ty title description).toList = _
  rw [hshape]
  refine findMarker_cons_of_match _ _ _ ?_
  have hres := matchMarkerAt_serialized ty.toList title.toList description.toList
    hty1 hty2 htp hdd
  rw [htt, hdt, mk_data title, mk_data description, hty3] at hres
  exact hres

/-- C3 (counterexample): the round-trip fails as stated for the pipe-free
title `" "`: the parser trims the captured title, so parsing the serialised
marker `[DIAGRAM: tree |   | d]` returns the empty title, not `" "`. -/
theorem C3_roundtrip_counterexample :
    parseDiagramMarker (serializeMarker "tree" " " "d")
      = some ⟨"tree", "", "d"⟩ ∧
    (⟨"tree", "", "d"⟩ : DiagramSpec) ≠ ⟨"tree", " ", "d"⟩ := by
  constructor
  · decide
  · decide

/-- C3: for every type among the five known kinds and every pipe-free,
trim-stable title and every pipe-free, trim-stable, line-terminator-free
description, parsing the serialised marker
`[DIAGRAM: <type> | <title> | <description>]` with `parseDiagramMarker`
yields exactly the record `{type, title, description}`. -/
theorem C3_marker_roundtrip (type title description : String)
    (htype : type ∈ knownDiagramTypes)
    (htitle_pipe : ∀ c ∈ title.toList, c ≠ '|')
    (htitle_trim : jsTrim title = title)
    (_hdesc_pipe : ∀ c ∈ description.toList, c ≠ '|')
    (hdesc_dot : ∀ c ∈ description.toList, isDotChar c = true)
    (hdesc_trim : jsTrim description = description) :
    parseDiagramMarker (serializeMarker type title description)
      = some ⟨type, title, description⟩ := by
  have ht : trimChars title.toList = title.toList := congrArg String.data htitle_trim
  have hd : trimChars description.toList = description.toList :=
    congrArg String.data hdesc_trim
  simp only [knownDiagramTypes, List.mem_cons, List.not_mem_nil, or_false] at htype
  rcases htype with h | h | h | h | h <;> subst h <;>
    exact parse_serialized_of _ _ _ (by decide) (by decide) (by decide)
      htitle_pipe ht hdesc_dot hd

/-- Witness for C3 at `("cycle", "Loop", "A -> B -> C -> A")`. -/
theorem C3_marker_roundtrip_witness :
    parseDiagramMarker (serializeMarker "cycle" "Loop" "A -> B -> C -> A")
      = some ⟨"cycle", "Loop", "A -> B -> C -> A"⟩ :=
  C3_marker_roundtrip "cycle" "Loop" "A -> B -> C -> A" (by decide) (by decide)
    (by decide) (by decide) (by decide) (by decide)
